import Mathlib

/-!
# Verification of the `lab-course-finder` crawler

A shallow embedding of `util.py`, `compare.py`, `search.py` and `crawler.py`
in Lean 4, with theorems about URL filtering (`is_url_ok_to_follow`),
URL normalization (`normalize_url`), similarity scoring (`compare_texts`),
synonym-expanded query building (`build_fts_query`), persistence
(`upsert_course`) and the pagination walker
(`iterate_pages_and_collect_links`).

Python strings are modelled as `List Char`.  The URL machinery of
`urllib.parse` (CPython 3.11) is embedded faithfully, including the
`ValueError`s it can raise (modelled by `Option`): the leading C0-control
strip, the removal of tab/CR/LF, scheme detection, netloc splitting, the
bracketed-host and non-ASCII netloc validation (the external `ipaddress` and
`unicodedata` collaborators are abstracted as boolean parameters `vb` and
`nf`), fragment/query/params splitting and re-serialization.
-/

namespace LabCrawler

/-- Python strings, modelled as lists of characters. -/
abbrev Str := List Char

/-- ASCII lowercasing of one character (`str.lower` restricted to ASCII,
which is all the URL machinery below feeds it). -/
def lowerChar (c : Char) : Char :=
  if 65 ≤ c.toNat ∧ c.toNat ≤ 90 then Char.ofNat (c.toNat + 32) else c

/-- WHATWG C0 control or space: the characters `urlsplit` strips from the
front of a URL. -/
def isC0OrSpace (c : Char) : Bool := c.toNat ≤ 32

/-- The unsafe URL bytes `urlsplit` removes anywhere: tab, CR, LF. -/
def isUnsafeChar (c : Char) : Bool := c == '\t' || c == '\r' || c == '\n'

/-- `url.lstrip(_WHATWG_C0_CONTROL_OR_SPACE)`. -/
def lstripC0 (s : Str) : Str := s.dropWhile isC0OrSpace

/-- `scheme.strip(_WHATWG_C0_CONTROL_OR_SPACE)`. -/
def stripC0 (s : Str) : Str :=
  ((s.dropWhile isC0OrSpace).reverse.dropWhile isC0OrSpace).reverse

/-- Removal of tab/CR/LF (`url.replace(b, "")` for the unsafe bytes). -/
def removeUnsafe (s : Str) : Str := s.filter (fun c => !isUnsafeChar c)

/-- Membership in `scheme_chars` (ASCII letters, digits, `+`, `-`, `.`). -/
def isSchemeChar (c : Char) : Bool :=
  c.isAlpha || c.isDigit || c == '+' || c == '-' || c == '.'

/-- Result of `urllib.parse.urlsplit`. -/
structure SplitResult where
  scheme : Str
  netloc : Str
  path : Str
  query : Str
  fragment : Str
deriving DecidableEq, Repr

/-- Result of `urllib.parse.urlparse` (`urlsplit` plus the params split off
the path). -/
structure ParseResult where
  scheme : Str
  netloc : Str
  path : Str
  params : Str
  query : Str
  fragment : Str
deriving DecidableEq, Repr

/-- The scheme test at the top of `urlsplit`: if there is a `:` at position
`i > 0`, the first character is an ASCII letter and everything before the
`:` is made of scheme characters, the lowercased prefix is the scheme. -/
def splitScheme (url : Str) : Option Str × Str :=
  if ':' ∈ url then
    if url.takeWhile (fun c => c != ':') ≠ [] ∧
       (url.takeWhile (fun c => c != ':')).all isSchemeChar ∧
       ((url.takeWhile (fun c => c != ':')).headD ' ').isAlpha then
      (some ((url.takeWhile (fun c => c != ':')).map lowerChar),
       (url.dropWhile (fun c => c != ':')).tail)
    else (none, url)
  else (none, url)

/-- A character ending the netloc (`/`, `?` or `#` in `_splitnetloc`). -/
def isNetlocEnd (c : Char) : Bool := c == '/' || c == '?' || c == '#'

/-- `_splitnetloc(url, 2)` applied to the url with its leading `//` already
dropped: the netloc runs up to the first `/`, `?` or `#`. -/
def splitNetloc (rest : Str) : Str × Str :=
  (rest.takeWhile (fun c => !isNetlocEnd c),
   rest.dropWhile (fun c => !isNetlocEnd c))

/-- ASCII test (`str.isascii` per character). -/
def isAsciiChar (c : Char) : Bool := c.toNat < 128

/-- The netloc validation inside `urlsplit`: unbalanced square brackets raise
`ValueError`; a bracketed host is checked by `_check_bracketed_host`
(external `ipaddress` parsing, abstracted as the predicate `vb`); a
non-ASCII netloc is checked by `_checknetloc` (external `unicodedata` NFKC
inspection, abstracted as the predicate `nf`).  `false` models a raised
`ValueError`. -/
def netlocChecksOk (vb nf : Str → Bool) (netloc : Str) : Bool :=
  if (netloc.contains '[' && !netloc.contains ']') ||
     (netloc.contains ']' && !netloc.contains '[') then false
  else if netloc.contains '[' && netloc.contains ']' && !vb netloc then false
  else if !netloc.all isAsciiChar && !nf netloc then false
  else true

/-- `urllib.parse.urlsplit` (CPython 3.11, `allow_fragments=True`) with a
default scheme.  `none` models a raised `ValueError`. -/
def urlsplit (vb nf : Str → Bool) (dflt : Str) (url0 : Str) : Option SplitResult :=
  let url1 := removeUnsafe (lstripC0 url0)
  let dscheme := removeUnsafe (stripC0 dflt)
  let sr := splitScheme url1
  let scheme := sr.1.getD dscheme
  let nr :=
    if sr.2.take 2 = ['/', '/'] then splitNetloc (sr.2.drop 2) else ([], sr.2)
  if netlocChecksOk vb nf nr.1 then
    let url4 := nr.2.takeWhile (fun c => c != '#')
    let fragment := (nr.2.dropWhile (fun c => c != '#')).tail
    let path := url4.takeWhile (fun c => c != '?')
    let query := (url4.dropWhile (fun c => c != '?')).tail
    some ⟨scheme, nr.1, path, query, fragment⟩
  else none

/-- `_splitparams`: split `;params` from the path, only looking at the part
after the last `/` when the path contains one. -/
def splitparams (url : Str) : Str × Str :=
  if url.contains '/' then
    let after := (url.reverse.takeWhile (fun c => c != '/')).reverse
    let before := (url.reverse.dropWhile (fun c => c != '/')).reverse
    if after.contains ';' then
      (before ++ after.takeWhile (fun c => c != ';'),
       (after.dropWhile (fun c => c != ';')).tail)
    else (url, [])
  else (url.takeWhile (fun c => c != ';'), (url.dropWhile (fun c => c != ';')).tail)

/-- `urllib.parse.urlparse` with a default scheme. -/
def urlparse (vb nf : Str → Bool) (dflt : Str) (url : Str) : Option ParseResult :=
  (urlsplit vb nf dflt url).map fun s =>
    ⟨s.scheme, s.netloc,
     (if s.path.contains ';' then splitparams s.path else (s.path, [])).1,
     (if s.path.contains ';' then splitparams s.path else (s.path, [])).2,
     s.query, s.fragment⟩

/-- `urllib.parse.uses_netloc` (CPython 3.11). -/
def uses_netloc : List Str :=
  ["", "ftp", "http", "gopher", "nntp", "telnet", "imap", "wais", "file",
   "mms", "https", "shttp", "snews", "prospero", "rtsp", "rtsps", "rtspu",
   "rsync", "svn", "svn+ssh", "sftp", "nfs", "git", "git+ssh", "ws",
   "wss"].map String.data

/-- `urllib.parse.uses_relative` (CPython 3.11). -/
def uses_relative : List Str :=
  ["", "ftp", "http", "gopher", "nntp", "imap", "wais", "file", "https",
   "shttp", "mms", "prospero", "rtsp", "rtsps", "rtspu", "sftp", "svn",
   "svn+ssh", "ws", "wss"].map String.data

/-- `urllib.parse.urlunsplit` (CPython 3.11). -/
def urlunsplit (s : SplitResult) : Str :=
  let url0 := s.path
  let url1 :=
    if s.netloc ≠ [] ∨ (s.scheme ≠ [] ∧ s.scheme ∈ uses_netloc ∧ url0.take 2 ≠ ['/', '/']) then
      '/' :: '/' :: s.netloc ++
        (if url0 ≠ [] ∧ url0.take 1 ≠ ['/'] then '/' :: url0 else url0)
    else url0
  let url2 := if s.scheme ≠ [] then s.scheme ++ ':' :: url1 else url1
  let url3 := if s.query ≠ [] then url2 ++ '?' :: s.query else url2
  if s.fragment ≠ [] then url3 ++ '#' :: s.fragment else url3

/-- `urllib.parse.urlunparse`. -/
def urlunparse (p : ParseResult) : Str :=
  let u := if p.params ≠ [] then p.path ++ ';' :: p.params else p.path
  urlunsplit ⟨p.scheme, p.netloc, u, p.query, p.fragment⟩

/-- `urllib.parse.urldefrag` (the defragmented URL; the Python function also
returns the fragment, unused by this program). -/
def urldefrag (vb nf : Str → Bool) (url : Str) : Option Str :=
  if url.contains '#' then
    (urlparse vb nf [] url).map fun p => urlunparse { p with fragment := [] }
  else some url

/-- `util.remove_fragment`. -/
def remove_fragment (vb nf : Str → Bool) (url : Str) : Option Str :=
  if url = [] then some url else urldefrag vb nf url

/-- `util.is_absolute_url`: nonempty, scheme `http`/`https`, nonempty netloc.
`none` models a `ValueError` escaping from `urlparse`. -/
def is_absolute_url (vb nf : Str → Bool) (url : Str) : Option Bool :=
  if url = [] then some false
  else (urlparse vb nf [] url).map fun p =>
    decide ((p.scheme = "http".data ∨ p.scheme = "https".data) ∧ p.netloc ≠ [])

/-- `util.normalize_url`: strip the fragment, lowercase scheme and netloc,
re-serialize.  `none` models a `ValueError` escaping from `urlparse`. -/
def normalize_url (vb nf : Str → Bool) (url : Str) : Option Str :=
  if url = [] then some []
  else do
    let u ← remove_fragment vb nf url
    let p ← urlparse vb nf [] u
    pure (urlunparse { p with scheme := p.scheme.map lowerChar,
                               netloc := p.netloc.map lowerChar })

/-- Python's `str.split(sep)` for one separator character: always at least
one (possibly empty) piece. -/
def splitOnChar (c : Char) : Str → List Str
  | [] => [[]]
  | x :: xs =>
    let r := splitOnChar c xs
    if x = c then [] :: r
    else
      match r with
      | [] => [[x]]
      | h :: t => (x :: h) :: t

/-- `[A-Za-z0-9]` (the extension alphabet of `_FILENAME_EXT_PATTERN`). -/
def isExtChar (c : Char) : Bool := c.isAlpha || c.isDigit

/-- `util._filename_extension`: the `\.([A-Za-z0-9]+)$` match on the last
non-empty path segment, lowercased and including the dot, or `[]`. -/
def filename_extension (path : Str) : Str :=
  if path = [] then []
  else
    match ((splitOnChar '/' path).filter (fun s => !s.isEmpty)).getLast? with
    | none => []
    | some last =>
      let revExt := last.reverse.takeWhile isExtChar
      if revExt ≠ [] ∧ (last.reverse.drop revExt.length).head? = some '.' then
        '.' :: (revExt.reverse.map lowerChar)
      else []

/-- `util.is_url_ok_to_follow`: absolute, in-domain, free of `@`/`mailto:`,
and a directory-like, extensionless or `.html` path.  `none` models an
escaping `ValueError`. -/
def is_url_ok_to_follow (vb nf : Str → Bool) (url domain : Str) : Option Bool := do
  let isAbs ← is_absolute_url vb nf url
  if !isAbs then return false
  if url.contains '@' || (url.map lowerChar).take 7 = "mailto:".data then return false
  let p ← urlparse vb nf [] url
  let netloc := p.netloc.map lowerChar
  let dom := domain.map lowerChar
  if !(netloc = dom ∨ ('.' :: dom).isSuffixOf netloc : Bool) then return false
  let path := if p.path = [] then "/".data else p.path
  let ext := filename_extension path
  if ['/'].isSuffixOf path then return true
  if ext = [] then return true
  if ext = ".html".data then return true
  return false

/-- `segments[1:-1] = filter(None, segments[1:-1])`: drop the empty strings
strictly between the first and the last element. -/
def filterMiddle (l : List Str) : List Str :=
  match l with
  | [] => []
  | [a] => [a]
  | a :: rest =>
    a :: ((rest.dropLast.filter (fun s => !s.isEmpty)) ++ [rest.getLastD []])

/-- `urllib.parse.urljoin` (CPython 3.11).  `none` models a raised
`ValueError`. -/
def urljoin (vb nf : Str → Bool) (base url : Str) : Option Str :=
  if base = [] then some url
  else if url = [] then some base
  else do
    let b ← urlparse vb nf [] base
    let u ← urlparse vb nf b.scheme url
    if u.scheme ≠ b.scheme ∨ u.scheme ∉ uses_relative then return url
    if u.scheme ∈ uses_netloc ∧ u.netloc ≠ [] then return urlunparse u
    let netloc := if u.scheme ∈ uses_netloc then b.netloc else u.netloc
    if u.path = [] ∧ u.params = [] then
      let query := if u.query = [] then b.query else u.query
      return urlunparse ⟨u.scheme, netloc, b.path, b.params, query, u.fragment⟩
    let baseParts0 := splitOnChar '/' b.path
    let baseParts := if baseParts0.getLastD [] ≠ [] then baseParts0.dropLast else baseParts0
    let segments :=
      if u.path.take 1 = ['/'] then splitOnChar '/' u.path
      else filterMiddle (baseParts ++ splitOnChar '/' u.path)
    let resolved0 := segments.foldl
      (fun acc seg =>
        if seg = "..".data then acc.dropLast
        else if seg = ".".data then acc
        else acc ++ [seg]) []
    let resolved :=
      if segments.getLast? = some "..".data ∨ segments.getLast? = some ".".data then
        resolved0 ++ [[]]
      else resolved0
    let joined := List.intercalate ['/'] resolved
    return urlunparse ⟨u.scheme, netloc, if joined = [] then ['/'] else joined,
                       u.params, u.query, u.fragment⟩

/-! ## `compare.py` -/

/-- Python `str.strip()` whitespace (the ASCII fragment). -/
def pyIsSpace (c : Char) : Bool :=
  c == ' ' || c == '\t' || c == '\n' || c == '\r' || c == '\x0b' || c == '\x0c'

/-- Python `str.strip()`. -/
def pyStrip (s : Str) : Str :=
  ((s.dropWhile pyIsSpace).reverse.dropWhile pyIsSpace).reverse

/-- `compare._tfidf_cosine`.  The external scikit-learn vectorizer and cosine
are abstracted as `fit`: `none` models a `ValueError` raised by
`fit_transform` (e.g. empty vocabulary after stopword removal), `some sim`
the cosine similarity of the two TF-IDF vectors.  Empty inputs short-circuit
to `0` and the result is clamped to `[0, 1]`, exactly as in the source. -/
def tfidf_cosine (fit : Str → Str → Option ℚ) (a0 b0 : Str) : ℚ :=
  if pyStrip a0 = [] ∧ pyStrip b0 = [] then 0
  else if pyStrip a0 = [] ∨ pyStrip b0 = [] then 0
  else
    match fit (pyStrip a0) (pyStrip b0) with
    | none => 0
    | some sim =>
      if (if sim < 0 then 0 else sim) > 1 then 1 else (if sim < 0 then 0 else sim)

/-- `compare.compare_texts`. -/
def compare_texts (fit : Str → Str → Option ℚ) (a b : Str) : ℚ :=
  tfidf_cosine fit a b

/-! ## The `courses` table and `crawler.py`'s persistence -/

/-- One row of the `courses` table: the thirteen columns `upsert_course`
writes, next to the SQLite `course_id` key (kept in the table pairs). -/
structure CourseRow where
  url : Str
  title : Str
  category : Option Str
  modality : Option Str
  duration : Option Str
  price : Option Str
  start_date : Option Str
  location : Option Str
  value_proposal : Option Str
  tutoria : Option Str
  description : Option Str
  raw_html : Option Str
  last_crawled_at : Str
deriving DecidableEq, Repr

/-- The `courses` table as `(course_id, row)` pairs. -/
abbrev CoursesTable := List (Nat × CourseRow)

/-- `crawler.upsert_course`.  Modelled from the spec: the SQL schema
(`sql/01_schema.sql`) is not among the sources; spec §6 describes `courses`
as "a courses table keyed by unique url", so
`INSERT ... ON CONFLICT(url) DO UPDATE SET <every field> = excluded.<field>`
becomes: overwrite all thirteen columns of the row carrying that url if one
exists, else append a fresh row under a fresh `course_id`. -/
def upsert_course (db : CoursesTable) (row : CourseRow) : CoursesTable :=
  if db.any (fun r => r.2.url == row.url) then
    db.map (fun r => if r.2.url = row.url then (r.1, row) else r)
  else db ++ [(db.foldl (fun m r => max m r.1) 0 + 1, row)]

/-- The per-link body of `crawler.crawl`'s detail loop.  Browser fetch plus
`parse_course_detail` are abstracted as `fetch : Str → Option CourseRow`
(`none` models an exception, which the loop catches and logs).  A record
with an empty title is skipped without touching the store. -/
def crawl_detail_step (fetch : Str → Option CourseRow) (db : CoursesTable)
    (link : Str) : CoursesTable :=
  match fetch link with
  | none => db
  | some data => if data.title = [] then db else upsert_course db data

/-- The detail phase of `crawler.crawl`: visit each collected link in turn. -/
def crawl_detail_phase (fetch : Str → Option CourseRow) (links : List Str)
    (db : CoursesTable) : CoursesTable :=
  links.foldl (crawl_detail_step fetch) db

/-! ## `compare.py`'s row selectors -/

/-- The text `compare.compare_course_ids` builds for one course:
`" ".join(t for t in (title, description, value_proposal, tutoria) if t)`
over the row found by `WHERE course_id=?`, or `""` if there is none. -/
def course_text (db : CoursesTable) (cid : Nat) : Str :=
  match db.find? (fun r => r.1 == cid) with
  | none => []
  | some r =>
    List.intercalate [' ']
      ((([some r.2.title, r.2.description, r.2.value_proposal,
          r.2.tutoria].filterMap id).filter (fun t => !t.isEmpty)))

/-- `compare.compare_course_ids`. -/
def compare_course_ids (fit : Str → Str → Option ℚ) (db : CoursesTable)
    (ida idb : Nat) : ℚ :=
  compare_texts fit (course_text db ida) (course_text db idb)

/-- `compare.compare_course_urls`: `SELECT course_id FROM courses WHERE
url=?` (first row in table order), `0.0` when either is missing. -/
def compare_course_urls (fit : Str → Str → Option ℚ) (db : CoursesTable)
    (ua ub : Str) : ℚ :=
  match db.find? (fun r => r.2.url == ua), db.find? (fun r => r.2.url == ub) with
  | some ra, some rb => compare_course_ids fit db ra.1 rb.1
  | _, _ => 0

/-- SQLite `LIKE`: `%` matches any run, `_` any single character, letters
match case-insensitively (ASCII).  The `%` case tries every suffix of the
text. -/
def likeMatch : Str → Str → Bool
  | [], t => t.isEmpty
  | '%' :: p, t => (List.range (t.length + 1)).any (fun i => likeMatch p (t.drop i))
  | '_' :: p, t =>
    match t with
    | [] => false
    | _ :: t1 => likeMatch p t1
  | c :: p, t =>
    match t with
    | [] => false
    | d :: t1 => (lowerChar c == lowerChar d) && likeMatch p t1

/-- `compare.compare_course_titles_contains`: for each argument, the first
course by `course_id` whose title `LIKE '%…%'`-matches it; `0.0` when either
lookup comes back empty. -/
def compare_course_titles_contains (fit : Str → Str → Option ℚ)
    (db : CoursesTable) (aContains bContains : Str) : ℚ :=
  match (db.mergeSort (fun a b => a.1 ≤ b.1)).find?
          (fun r => likeMatch ('%' :: aContains ++ ['%']) r.2.title),
        (db.mergeSort (fun a b => a.1 ≤ b.1)).find?
          (fun r => likeMatch ('%' :: bContains ++ ['%']) r.2.title) with
  | some ra, some rb => compare_course_ids fit db ra.1 rb.1
  | _, _ => 0

/-! ## `search.py` -/

/-- The `terms` and `synonyms` tables: `(term_id, text)` rows. -/
structure SynDB where
  terms : List (Nat × Str)
  synonyms : List (Nat × Str)

/-- `search.get_synonyms`: look the term up case-insensitively in `terms`
(first row in table order), then collect its non-empty synonyms, stripped
and lowercased.  Python builds a `set`; the model keeps table order and
deduplicates. -/
def get_synonyms (con : SynDB) (term : Str) : List Str :=
  let t := (pyStrip term).map lowerChar
  match con.terms.find? (fun r => r.2.map lowerChar == t) with
  | none => []
  | some r =>
    ((con.synonyms.filter (fun q => q.1 == r.1 && !q.2.isEmpty)).map
      (fun q => (pyStrip q.2).map lowerChar))

/-- FTS quoting in `build_fts_query`: wrap a part containing a space in
double quotes. -/
def quotePart (p : Str) : Str := if p.contains ' ' then '"' :: p ++ ['"'] else p

/-- First-occurrence deduplication (the determinization of Python's `set`
iteration chosen by this model: the term first, synonyms in table order). -/
def dedupKeepFirst (l : List Str) : List Str :=
  l.foldl (fun acc x => if x ∈ acc then acc else acc ++ [x]) []

/-- `search.build_fts_query`: one parenthesized OR-group per non-blank term,
containing the lowercased term and its synonyms (multi-word parts quoted),
all groups joined with OR. -/
def build_fts_query (terms : List Str) (con : SynDB) : Str :=
  List.intercalate " OR ".data
    (terms.filterMap fun t0 =>
      if pyStrip t0 = [] then none
      else some ('(' :: List.intercalate " OR ".data
        ((dedupKeepFirst ((pyStrip t0).map lowerChar ::
          (get_synonyms con (pyStrip t0)).map (fun s => s.map lowerChar))).map
            quotePart) ++ [')']))

/-- The SQLite engine behind `search.search`, abstracted: `ranked` runs the
bm25-ordered query (`Except.error` models `sqlite3.OperationalError` when
bm25 is unsupported), `unranked` the fallback.  A result row is
`(url, title, score)`. -/
structure FtsEnv where
  ranked : Str → Nat → Except Unit (List (Str × Str × Int))
  unranked : Str → Nat → Except Unit (List (Str × Str × Int))

/-- `search.search`: empty match expression short-circuits to `[]`; a ranked
query failure falls back to the unranked query over the same expression. -/
def search (env : FtsEnv) (con : SynDB) (interests : List Str) (top : Nat) :
    Except Unit (List (Str × Str × Int)) :=
  if build_fts_query interests con = [] then .ok []
  else
    match env.ranked (build_fts_query interests con) top with
    | .ok rows => .ok rows
    | .error _ => env.unranked (build_fts_query interests con) top

/-! ## `crawler.py`'s catalog walker -/

/-- One catalog card (`li.item-programa.ais-Hits-item`), abstracted from the
rendered DOM: the stripped text of its `div.card-type` (when present), the
`href` of the first anchor inside `.card-body`, the `href` of the first
anchor anywhere in the card, and the text of its `b.card-title`. -/
structure Card where
  typeText : Option Str
  bodyHref : Option Str
  anyHref : Option Str
  titleText : Option Str
deriving DecidableEq, Repr

/-- Python's `needle in hay` substring test. -/
def containsSub (hay needle : Str) : Bool :=
  (List.range (hay.length + 1)).any (fun i => needle.isPrefixOf (hay.drop i))

/-- `crawler.is_course_card`: the card-type text, lowercased, must contain
`"curso"`. -/
def is_course_card (card : Card) : Bool :=
  match card.typeText with
  | none => false
  | some t => containsSub (t.map lowerChar) "curso".data

/-- `crawler.extract_course_link_from_card`: body anchor first, else any
anchor; blank href yields no link; otherwise `urljoin` against the page URL.
The outer `none` models an escaping exception (`urljoin` raising
`ValueError`); `some none` a card without a usable link. -/
def extract_course_link_from_card (vb nf : Str → Bool) (card : Card)
    (base_url : Str) : Option (Option Str) :=
  match card.bodyHref.orElse (fun _ => card.anyHref) with
  | none => some none
  | some href0 =>
    let href := pyStrip href0
    if href = [] then some none
    else (urljoin vb nf base_url href).map some

/-- `crawler._first_card_title_text`: the text of the first card title in
the current render, else `""`. -/
def first_card_title (cards : List Card) : Str :=
  match cards.find? (fun c => c.titleText.isSome) with
  | none => []
  | some c => c.titleText.getD []

/-- The browser during one crawl run, abstracted: `render i` is the DOM when
iteration `i` scans cards (`render 0` the initial load) and `clickOk i` says
whether iteration `i`'s click-and-wait `try` block runs to completion
(timeouts and stale elements make it `false`). -/
structure Browser where
  render : Nat → List Card
  clickOk : Nat → Bool

/-- The body of the unguarded card scan for one card: skip non-course cards,
resolve the link, add it to the deduplicating link set (`None`/blank links
add nothing).  `none` models an exception escaping the scan (which sits
outside the click phase `try`). -/
def collect_step (vb nf : Str → Bool) (base : Str) (s : Finset Str)
    (card : Card) : Option (Finset Str) :=
  if is_course_card card then
    (extract_course_link_from_card vb nf card base).map fun link =>
      match link with
      | none => s
      | some l => if l = [] then s else insert l s
  else some s

/-- The unguarded card scan of one pagination step: filter to course cards,
resolve each link, add it to the deduplicating link set. -/
def collect_course_links (vb nf : Str → Bool) (base : Str) (cards : List Card)
    (links : Finset Str) : Option (Finset Str) :=
  cards.foldl (fun acc card => acc.bind fun s => collect_step vb nf base s card)
    (some links)

/-- One iteration of the pagination loop: the guarded click-and-wait (on
success the fingerprint is refreshed, on an exception it is kept), then the
unguarded scan. -/
def iterate_step (vb nf : Str → Bool) (br : Browser) (base : Str) (i : Nat)
    (st : Finset Str × Str) : Option (Finset Str × Str) :=
  (collect_course_links vb nf base (br.render i) st.1).map fun l =>
    (l, if br.clickOk i then first_card_title (br.render i) else st.2)

/-- `crawler.iterate_pages_and_collect_links`: navigate to the start URL and
wait for the first render (`initOk`; per spec §4.3 a timeout here is fatal),
record the initial fingerprint, then loop the page indices `1..pages`. -/
def iterate_pages_and_collect_links (vb nf : Str → Bool) (br : Browser)
    (initOk : Bool) (start_url : Str) (pages : Nat) : Option (Finset Str) :=
  if !initOk then none
  else
    ((((List.range pages).map (fun i => i + 1)).foldl
        (fun st i => st.bind (iterate_step vb nf br start_url i))
        (some (∅, first_card_title (br.render 0)))).map (fun st => st.1))

/-! ## Derived notions used by the verification -/

/-- Lowercase scheme and netloc: `parsed._replace(scheme=…, netloc=…)` in
`normalize_url`. -/
def lowerSN (p : ParseResult) : ParseResult :=
  { p with scheme := p.scheme.map lowerChar, netloc := p.netloc.map lowerChar }

/-- Drop the fragment of a parse result. -/
def dropFrag (p : ParseResult) : ParseResult := { p with fragment := [] }

/-- Re-attach params to the path, as `urlunparse` does before `urlunsplit`. -/
def combineParams (p : ParseResult) : SplitResult :=
  ⟨p.scheme, p.netloc,
   if p.params ≠ [] then p.path ++ ';' :: p.params else p.path,
   p.query, p.fragment⟩

/-- The path-and-query body `urlunsplit` emits when it adds no netloc part. -/
def splitBody (s : SplitResult) : Str :=
  s.path ++ (if s.query = [] then [] else '?' :: s.query)

/-- What re-parsing an `urlunsplit` serialization yields: the same components
up to the `/`-prepend applied to a relative path serialized next to `//`. -/
def canonS (s : SplitResult) : SplitResult :=
  if s.netloc = [] ∧ s.scheme ≠ [] ∧ s.scheme ∈ uses_netloc ∧
     s.path.take 2 ≠ ['/', '/'] ∧ s.path ≠ [] ∧ s.path.take 1 ≠ ['/'] then
    { s with path := '/' :: s.path }
  else s

/-- Stability of a split result under re-serialization: an empty netloc next
to a `//`-headed path would migrate path characters into the netloc when the
serialization is parsed again. -/
def StableS (s : SplitResult) : Prop := s.netloc ≠ [] ∨ s.path.take 2 ≠ ['/', '/']

/-- Stability of a parse result (same condition; appending `;params` never
turns a path into a `//`-headed one). -/
def StableP (p : ParseResult) : Prop := p.netloc ≠ [] ∨ p.path.take 2 ≠ ['/', '/']

/-- Scheme/netloc lowering at the `urlsplit` level. -/
def lowerSNs (s : SplitResult) : SplitResult :=
  { s with scheme := s.scheme.map lowerChar, netloc := s.netloc.map lowerChar }

/-- The parse-level counterpart of `canonS`: what re-parsing `urlunparse p`
yields, namely `p` with the `/`-prepend applied to its path when the
serialization inserted one. -/
def canonP (p : ParseResult) : ParseResult :=
  if p.netloc = [] ∧ p.scheme ≠ [] ∧ p.scheme ∈ uses_netloc ∧
     (combineParams p).path.take 2 ≠ ['/', '/'] ∧ (combineParams p).path ≠ [] ∧
     (combineParams p).path.take 1 ≠ ['/'] then
    { p with path := '/' :: p.path }
  else p

/-- The path-and-query body that splitting `m` at `#` and `?` leaves behind:
what `urlsplit` turns into `path` and `query`, re-joined the way
`urlunsplit` would. -/
def bodyOf (m : Str) : Str :=
  (m.takeWhile (fun c => c != '#')).takeWhile (fun c => c != '?') ++
    (if ((m.takeWhile (fun c => c != '#')).dropWhile (fun c => c != '?')).tail = []
     then []
     else '?' :: ((m.takeWhile (fun c => c != '#')).dropWhile (fun c => c != '?')).tail)

/-- The suffix of `l` after its last occurrence of `c` (all of `l` when `c`
is absent). -/
def afterLastChar (c : Char) (l : Str) : Str :=
  (l.reverse.takeWhile (fun x => x != c)).reverse

/-- The params-side invariants of an `urlparse` result: they make the
`_splitparams` re-split of `path ++ ';' ++ params` recover
`(path, params)`. -/
def ParamsInv (p : ParseResult) : Prop :=
  '/' ∉ p.params ∧
  ('/' ∈ p.path → ';' ∉ afterLastChar '/' p.path) ∧
  ('/' ∉ p.path → ';' ∉ p.path)

/-- Invariants of every (defragmented) `urlsplit` result — exactly what the
reparse lemma `urlsplit_urlunsplit` needs. -/
structure UrlInv (vb nf : Str → Bool) (s : SplitResult) : Prop where
  scheme_ok : s.scheme = [] ∨
    (s.scheme ≠ [] ∧ s.scheme.all isSchemeChar ∧ (s.scheme.headD ' ').isAlpha ∧
     s.scheme.map lowerChar = s.scheme)
  netloc_sep : ∀ c ∈ s.netloc, ¬ (isNetlocEnd c : Prop)
  path_sep : ∀ c ∈ s.path, c ≠ '?' ∧ c ≠ '#'
  query_sep : ∀ c ∈ s.query, c ≠ '#'
  frag_nil : s.fragment = []
  no_unsafe : ∀ c ∈ s.netloc ++ s.path ++ s.query, ¬ (isUnsafeChar c : Prop)
  netloc_path : s.netloc ≠ [] → s.path = [] ∨ s.path.take 1 = ['/']
  checks : netlocChecksOk vb nf s.netloc = true
  lead : s.scheme = [] → s.netloc = [] → s.path.take 2 ≠ ['/', '/'] →
    splitScheme (splitBody s) = (none, splitBody s) ∧
    (splitBody s = [] ∨ ¬isC0OrSpace ((splitBody s).headD 'x'))

/-! ## Character-level lemmas -/

theorem char_eq_of_toNat_eq {a b : Char} (h : a.toNat = b.toNat) : a = b :=
  Char.ext (UInt32.ext h)

theorem toNat_ofNat_small {n : Nat} (h : n < 55296) : (Char.ofNat n).toNat = n := by
  have hv : Nat.isValidChar n := Or.inl h
  unfold Char.ofNat
  rw [dif_pos hv]
  unfold Char.ofNatAux Char.toNat
  simp [UInt32.toNat, BitVec.toNat_ofNatLt]

theorem lowerChar_of_upper {c : Char} (h : 65 ≤ c.toNat ∧ c.toNat ≤ 90) :
    lowerChar c = Char.ofNat (c.toNat + 32) := by
  unfold lowerChar; exact if_pos h

theorem lowerChar_of_not_upper {c : Char} (h : ¬(65 ≤ c.toNat ∧ c.toNat ≤ 90)) :
    lowerChar c = c := by
  unfold lowerChar; exact if_neg h

theorem lowerChar_toNat (c : Char) :
    (lowerChar c).toNat =
      if 65 ≤ c.toNat ∧ c.toNat ≤ 90 then c.toNat + 32 else c.toNat := by
  by_cases h : 65 ≤ c.toNat ∧ c.toNat ≤ 90
  · rw [lowerChar_of_upper h, if_pos h, toNat_ofNat_small (by omega)]
  · rw [lowerChar_of_not_upper h, if_neg h]

theorem lowerChar_idem (c : Char) : lowerChar (lowerChar c) = lowerChar c := by
  by_cases h : 65 ≤ c.toNat ∧ c.toNat ≤ 90
  · apply lowerChar_of_not_upper
    rw [lowerChar_toNat, if_pos h]
    omega
  · rw [lowerChar_of_not_upper h, lowerChar_of_not_upper h]

theorem map_lowerChar_idem (l : Str) :
    (l.map lowerChar).map lowerChar = l.map lowerChar := by
  rw [List.map_map]
  exact List.map_congr_left fun c _ => lowerChar_idem c

/-- A character that is neither an upper- nor a lowercase ASCII letter is hit
by `lowerChar c` exactly when it is `c` itself. -/
theorem lowerChar_eq_iff_not_letter {d : Char} (h1 : ¬(65 ≤ d.toNat ∧ d.toNat ≤ 90))
    (h2 : ¬(97 ≤ d.toNat ∧ d.toNat ≤ 122)) (c : Char) : lowerChar c = d ↔ c = d := by
  constructor
  · intro h
    by_cases hc : 65 ≤ c.toNat ∧ c.toNat ≤ 90
    · exfalso
      have ht := congrArg Char.toNat h
      rw [lowerChar_toNat, if_pos hc] at ht
      omega
    · rwa [lowerChar_of_not_upper hc] at h
  · intro h; subst h; exact lowerChar_of_not_upper h1

theorem mem_map_lowerChar_iff_not_letter {d : Char}
    (h1 : ¬(65 ≤ d.toNat ∧ d.toNat ≤ 90)) (h2 : ¬(97 ≤ d.toNat ∧ d.toNat ≤ 122))
    (l : Str) : d ∈ l.map lowerChar ↔ d ∈ l := by
  rw [List.mem_map]
  constructor
  · rintro ⟨a, ha, hla⟩
    have had : a = d := (lowerChar_eq_iff_not_letter h1 h2 a).mp hla
    rwa [had] at ha
  · intro hd
    exact ⟨d, hd, lowerChar_of_not_upper h1⟩

/-- For a target character that is not an ASCII letter, the `==` test is
transparent to `lowerChar`. -/
theorem beq_lowerChar {d : Char} (h1 : ¬(65 ≤ d.toNat ∧ d.toNat ≤ 90))
    (h2 : ¬(97 ≤ d.toNat ∧ d.toNat ≤ 122)) (c : Char) :
    (lowerChar c == d) = (c == d) := by
  have hiff := lowerChar_eq_iff_not_letter h1 h2 c
  rcases Bool.eq_false_or_eq_true (c == d) with hb | hb
  · rw [hb]
    rw [beq_iff_eq] at hb
    rw [beq_iff_eq]
    exact hiff.mpr hb
  · rw [hb]
    rw [beq_eq_false_iff_ne] at hb
    rw [beq_eq_false_iff_ne]
    exact fun he => hb (hiff.mp he)

theorem isUnsafeChar_lowerChar (c : Char) :
    isUnsafeChar (lowerChar c) = isUnsafeChar c := by
  unfold isUnsafeChar
  rw [beq_lowerChar (by decide) (by decide), beq_lowerChar (by decide) (by decide),
      beq_lowerChar (by decide) (by decide)]

theorem isNetlocEnd_lowerChar (c : Char) :
    isNetlocEnd (lowerChar c) = isNetlocEnd c := by
  unfold isNetlocEnd
  rw [beq_lowerChar (by decide) (by decide), beq_lowerChar (by decide) (by decide),
      beq_lowerChar (by decide) (by decide)]

theorem isAsciiChar_lowerChar (c : Char) :
    isAsciiChar (lowerChar c) = isAsciiChar c := by
  unfold isAsciiChar
  rw [lowerChar_toNat]
  by_cases h : 65 ≤ c.toNat ∧ c.toNat ≤ 90
  · rw [if_pos h, decide_eq_decide]
    omega
  · rw [if_neg h]

theorem isAlpha_eq (c : Char) :
    c.isAlpha = ((decide (65 ≤ c.toNat) && decide (c.toNat ≤ 90)) ||
                 (decide (97 ≤ c.toNat) && decide (c.toNat ≤ 122))) := rfl

theorem isAlpha_lowerChar {c : Char} (h : c.isAlpha) : (lowerChar c).isAlpha := by
  rw [isAlpha_eq] at h ⊢
  rw [lowerChar_toNat]
  by_cases hu : 65 ≤ c.toNat ∧ c.toNat ≤ 90
  · rw [if_pos hu]
    simp only [Bool.or_eq_true, Bool.and_eq_true, decide_eq_true_eq]
    right
    exact ⟨by omega, by omega⟩
  · rwa [if_neg hu]

theorem isSchemeChar_lowerChar {c : Char} (h : isSchemeChar c) :
    isSchemeChar (lowerChar c) := by
  by_cases hu : 65 ≤ c.toNat ∧ c.toNat ≤ 90
  · have ha : (lowerChar c).isAlpha := by
      apply isAlpha_lowerChar
      rw [isAlpha_eq]
      simp only [Bool.or_eq_true, Bool.and_eq_true, decide_eq_true_eq]
      left
      exact ⟨hu.1, hu.2⟩
    unfold isSchemeChar
    simp [ha]
  · rwa [lowerChar_of_not_upper hu]

theorem isC0OrSpace_lowerChar (c : Char) :
    isC0OrSpace (lowerChar c) = isC0OrSpace c := by
  unfold isC0OrSpace
  rw [lowerChar_toNat]
  by_cases h : 65 ≤ c.toNat ∧ c.toNat ≤ 90
  · rw [if_pos h, decide_eq_decide]
    omega
  · rw [if_neg h]

/-! ## Generic splitting lemmas -/

theorem takeWhile_ne_append {c : Char} {A B : Str} (hA : c ∉ A) :
    (A ++ c :: B).takeWhile (fun x => x != c) = A := by
  rw [List.takeWhile_append_of_pos
        (fun a ha => bne_iff_ne.mpr (fun he => hA (by rw [← he]; exact ha)))]
  rw [List.takeWhile_cons_of_neg (by simp), List.append_nil]

theorem dropWhile_ne_append {c : Char} {A B : Str} (hA : c ∉ A) :
    (A ++ c :: B).dropWhile (fun x => x != c) = c :: B := by
  rw [List.dropWhile_append_of_pos
        (fun a ha => bne_iff_ne.mpr (fun he => hA (by rw [← he]; exact ha)))]
  rw [List.dropWhile_cons_of_neg (by simp)]

theorem takeWhile_ne_of_not_mem {c : Char} {A : Str} (hA : c ∉ A) :
    A.takeWhile (fun x => x != c) = A :=
  List.takeWhile_eq_self_iff.mpr
    (fun x hx => bne_iff_ne.mpr fun he => hA (by rw [← he]; exact hx))

theorem dropWhile_ne_of_not_mem {c : Char} {A : Str} (hA : c ∉ A) :
    A.dropWhile (fun x => x != c) = [] :=
  List.dropWhile_eq_nil_iff.mpr
    (fun x hx => bne_iff_ne.mpr fun he => hA (by rw [← he]; exact hx))

/-- `takeWhile`/`dropWhile` stop exactly at the junction when everything to
the left satisfies `p` and the head on the right does not. -/
theorem takeWhile_append_stop {p : Char → Bool} {N R : Str} (hN : ∀ x ∈ N, p x)
    (hR : R ≠ [] → ¬ p (R.headD ' ')) :
    (N ++ R).takeWhile p = N ∧ (N ++ R).dropWhile p = R := by
  constructor
  · rw [List.takeWhile_append_of_pos hN]
    cases R with
    | nil => simp
    | cons r rs =>
      have hr : ¬ p r := hR (by simp)
      rw [List.takeWhile_cons_of_neg hr, List.append_nil]
  · rw [List.dropWhile_append_of_pos hN]
    cases R with
    | nil => simp
    | cons r rs =>
      have hr : ¬ p r := hR (by simp)
      rw [List.dropWhile_cons_of_neg hr]

theorem headD_takeWhile_of_ne_nil {p : Char → Bool} {l : Str}
    (h : l.takeWhile p ≠ []) : (l.takeWhile p).headD ' ' = l.headD ' ' := by
  cases l with
  | nil => simp at h
  | cons x t =>
    rw [List.takeWhile_cons] at h ⊢
    by_cases hp : p x
    · rw [if_pos hp]
      rfl
    · rw [if_neg hp] at h
      exact absurd rfl h

theorem mem_of_mem_takeWhile {p : Char → Bool} {l : Str} {x : Char}
    (h : x ∈ l.takeWhile p) : x ∈ l :=
  (List.takeWhile_sublist p).subset h

/-! ## `splitScheme` lemmas -/

theorem splitScheme_some {sch rest : Str} (hne : sch ≠ [])
    (hall : sch.all isSchemeChar) (halpha : (sch.headD ' ').isAlpha) :
    splitScheme (sch ++ ':' :: rest) = (some (sch.map lowerChar), rest) := by
  have hnotmem : ':' ∉ sch := by
    intro hm
    have hc := List.all_eq_true.mp hall ':' hm
    exact absurd hc (by decide)
  have hmem : ':' ∈ sch ++ ':' :: rest := List.mem_append.mpr (Or.inr (by simp))
  unfold splitScheme
  rw [if_pos hmem, takeWhile_ne_append hnotmem, dropWhile_ne_append hnotmem,
      if_pos ⟨hne, hall, halpha⟩]
  rfl

theorem splitScheme_none_of_no_colon {l : Str} (h : ':' ∉ l) :
    splitScheme l = (none, l) := by
  unfold splitScheme
  rw [if_neg h]

theorem splitScheme_none_of_head {l : Str} (h : ¬ ((l.headD ' ').isAlpha : Prop)) :
    splitScheme l = (none, l) := by
  unfold splitScheme
  by_cases hc : ':' ∈ l
  · rw [if_pos hc, if_neg]
    rintro ⟨h1, _, h3⟩
    exact h (headD_takeWhile_of_ne_nil h1 ▸ h3)
  · rw [if_neg hc]

/-- Transfer of a failed scheme test from a string to any of its prefixes. -/
theorem splitScheme_none_of_append {t r : Str} (hm : splitScheme (t ++ r) = (none, t ++ r)) :
    splitScheme t = (none, t) := by
  by_cases hc : ':' ∈ t
  · have hdec := List.takeWhile_append_dropWhile (fun x => x != ':') t
    set A := t.takeWhile (fun x => x != ':') with hA
    have hdrop : t.dropWhile (fun x => x != ':') =
        ':' :: (t.dropWhile (fun x => x != ':')).tail := by
      cases hd : t.dropWhile (fun x => x != ':') with
      | nil =>
        exfalso
        rw [List.dropWhile_eq_nil_iff] at hd
        exact absurd (bne_iff_ne.mp (hd ':' hc)) (by simp)
      | cons x xs =>
        have hx := List.head?_dropWhile_not (fun x => x != ':') t
        rw [hd] at hx
        simp only [List.head?_cons] at hx
        have hxc : x = ':' := by simpa using hx
        rw [hxc]
        rfl
    set B := (t.dropWhile (fun x => x != ':')).tail with hB
    have ht : t = A ++ ':' :: B := by
      conv_lhs => rw [← hdec]
      rw [hdrop]
    have hnA : ':' ∉ A := by
      intro hmem
      have := List.mem_takeWhile_imp hmem
      simp at this
    have htr : t ++ r = A ++ ':' :: (B ++ r) := by rw [ht]; simp
    have hcr : ':' ∈ t ++ r := List.mem_append.mpr (Or.inl hc)
    unfold splitScheme at hm
    rw [if_pos hcr, htr, takeWhile_ne_append hnA] at hm
    by_cases hcond : A ≠ [] ∧ A.all isSchemeChar ∧ ((A.headD ' ').isAlpha : Prop)
    · rw [if_pos hcond] at hm
      simp at hm
    · unfold splitScheme
      rw [if_pos hc, ← hA, if_neg hcond]
  · exact splitScheme_none_of_no_colon hc

theorem dropWhile_ne_eq_cons {c : Char} {l : Str} (h : c ∈ l) :
    l.dropWhile (fun x => x != c) = c :: (l.dropWhile (fun x => x != c)).tail := by
  cases hd : l.dropWhile (fun x => x != c) with
  | nil =>
    exfalso
    rw [List.dropWhile_eq_nil_iff] at hd
    exact absurd (bne_iff_ne.mp (hd c h)) (by simp)
  | cons x xs =>
    have hx := List.head?_dropWhile_not (fun x => x != c) l
    rw [hd] at hx
    simp only [List.head?_cons] at hx
    have hxc : x = c := by simpa using hx
    rw [hxc]
    rfl

theorem splitScheme_snd_of_none {l rest : Str} (h : splitScheme l = (none, rest)) :
    rest = l := by
  unfold splitScheme at h
  by_cases hc : ':' ∈ l
  · rw [if_pos hc] at h
    by_cases hcond : l.takeWhile (fun c => c != ':') ≠ [] ∧
        (l.takeWhile (fun c => c != ':')).all isSchemeChar ∧
        (((l.takeWhile (fun c => c != ':')).headD ' ').isAlpha : Prop)
    · rw [if_pos hcond] at h
      simp at h
    · rw [if_neg hcond] at h
      simp at h
      exact h.symm
  · rw [if_neg hc] at h
    simp at h
    exact h.symm

theorem splitScheme_some_inv {l sch rest : Str} (h : splitScheme l = (some sch, rest)) :
    l = l.takeWhile (fun c => c != ':') ++ ':' :: rest ∧
    sch = (l.takeWhile (fun c => c != ':')).map lowerChar ∧
    l.takeWhile (fun c => c != ':') ≠ [] ∧
    (l.takeWhile (fun c => c != ':')).all isSchemeChar ∧
    (((l.takeWhile (fun c => c != ':')).headD ' ').isAlpha : Prop) := by
  unfold splitScheme at h
  by_cases hc : ':' ∈ l
  · rw [if_pos hc] at h
    by_cases hcond : l.takeWhile (fun c => c != ':') ≠ [] ∧
        (l.takeWhile (fun c => c != ':')).all isSchemeChar ∧
        (((l.takeWhile (fun c => c != ':')).headD ' ').isAlpha : Prop)
    · rw [if_pos hcond] at h
      simp only [Prod.mk.injEq, Option.some.injEq] at h
      refine ⟨?_, h.1.symm, hcond.1, hcond.2.1, hcond.2.2⟩
      conv_lhs => rw [← List.takeWhile_append_dropWhile (fun c => c != ':') l]
      rw [dropWhile_ne_eq_cons hc, h.2]
    · rw [if_neg hcond] at h
      simp at h
  · rw [if_neg hc] at h
    simp at h

theorem headD_append_left {A : Str} (B : Str) (h : A ≠ []) (d : Char) :
    (A ++ B).headD d = A.headD d := by
  cases A with
  | nil => exact absurd rfl h
  | cons a t => rfl

theorem not_c0_of_isAlpha {c : Char} (h : c.isAlpha) : ¬ (isC0OrSpace c : Prop) := by
  rw [isAlpha_eq] at h
  simp only [Bool.or_eq_true, Bool.and_eq_true, decide_eq_true_eq] at h
  unfold isC0OrSpace
  simp only [decide_eq_true_eq]
  rcases h with ⟨h1, h2⟩ | ⟨h1, h2⟩ <;> omega

theorem unsafe_imp_c0 {c : Char} (h : isUnsafeChar c) : isC0OrSpace c := by
  unfold isUnsafeChar at h
  simp only [Bool.or_eq_true, beq_iff_eq] at h
  rcases h with (h | h) | h <;> (subst h; decide)

theorem not_unsafe_of_schemeChar {c : Char} (h : isSchemeChar c) :
    ¬ (isUnsafeChar c : Prop) := by
  intro hu
  unfold isUnsafeChar at hu
  simp only [Bool.or_eq_true, beq_iff_eq] at hu
  rcases hu with (h1 | h1) | h1 <;> (subst h1; exact absurd h (by decide))

/-- A string with no unsafe characters and a non-C0 head survives the
cleaning pass of `urlsplit` unchanged. -/
theorem clean_fixpoint {v : Str} (hclean : ∀ c ∈ v, ¬ (isUnsafeChar c : Prop))
    (hhead : v ≠ [] → ¬ (isC0OrSpace (v.headD 'x') : Prop)) :
    removeUnsafe (lstripC0 v) = v := by
  have h1 : lstripC0 v = v := by
    unfold lstripC0
    cases v with
    | nil => rfl
    | cons c t => exact List.dropWhile_cons_of_neg (hhead (by simp))
  rw [h1]
  unfold removeUnsafe
  rw [List.filter_eq_self]
  intro a ha
  simp [hclean a ha]

/-- The cleaned URL never starts with a C0-control or space character. -/
theorem url1_head_not_c0 {u : Str} :
    removeUnsafe (lstripC0 u) ≠ [] →
    ¬ (isC0OrSpace ((removeUnsafe (lstripC0 u)).headD 'x') : Prop) := by
  intro h
  cases hm : lstripC0 u with
  | nil =>
    rw [hm] at h
    exact absurd rfl h
  | cons c t =>
    have hc : ¬ (isC0OrSpace c : Prop) := by
      have hh := List.head?_dropWhile_not isC0OrSpace u
      unfold lstripC0 at hm
      rw [hm] at hh
      simpa using hh
    have hcu : ¬ (isUnsafeChar c : Prop) := fun hu => hc (unsafe_imp_c0 hu)
    unfold removeUnsafe
    rw [List.filter_cons_of_pos (by simp [hcu])]
    simpa using hc

theorem take2_ne_slashslash {path Q : Str} (hp : path.take 2 ≠ ['/', '/'])
    (hQ : Q = [] ∨ ∃ q, Q = '?' :: q) : (path ++ Q).take 2 ≠ ['/', '/'] := by
  cases path with
  | nil =>
    rcases hQ with rfl | ⟨q, rfl⟩
    · simp
    · simp only [List.nil_append]
      intro he
      have : '?' = '/' := by
        have := congrArg (fun l => l.headD ' ') he
        cases q <;> simpa using this
      exact absurd this (by decide)
  | cons a t =>
    cases t with
    | nil =>
      rcases hQ with rfl | ⟨q, rfl⟩
      · simp
      · intro he
        simp only [List.cons_append, List.nil_append, List.take] at he
        cases q with
        | nil => simp at he
        | cons x xs =>
          simp only [List.take, List.cons.injEq] at he
          exact absurd he.2.1 (by decide)
    | cons b r =>
      intro he
      apply hp
      simpa using he

/-- Decomposing a string into the `path`/`query` body `urlunsplit` would
re-emit for it, plus a possibly dropped trailing `?`. -/
theorem query_body_decomp (m : Str) :
    ∃ r, m = (m.takeWhile (fun c => c != '?') ++
      (if (m.dropWhile (fun c => c != '?')).tail = [] then []
       else '?' :: (m.dropWhile (fun c => c != '?')).tail)) ++ r := by
  by_cases hc : '?' ∈ m
  · have hdec := List.takeWhile_append_dropWhile (fun c => c != '?') m
    have hdrop := dropWhile_ne_eq_cons hc
    by_cases ht : (m.dropWhile (fun c => c != '?')).tail = []
    · refine ⟨['?'], ?_⟩
      rw [if_pos ht]
      conv_lhs => rw [← hdec]
      rw [hdrop, ht]
      simp
    · refine ⟨[], ?_⟩
      rw [if_neg ht]
      conv_lhs => rw [← hdec]
      rw [hdrop]
      simp
  · refine ⟨[], ?_⟩
    rw [takeWhile_ne_of_not_mem hc, dropWhile_ne_of_not_mem hc]
    simp

theorem dscheme_nil : removeUnsafe (stripC0 ([] : Str)) = [] := rfl

theorem pathq_sep (m : Str) :
    ∀ c ∈ (m.takeWhile (fun c => c != '#')).takeWhile (fun c => c != '?'),
      c ≠ '?' ∧ c ≠ '#' := by
  intro c hc
  constructor
  · have h1 := List.mem_takeWhile_imp hc
    simpa using h1
  · have hc4 := mem_of_mem_takeWhile hc
    have h2 := List.mem_takeWhile_imp hc4
    simpa using h2

theorem queryq_sep (m : Str) :
    ∀ c ∈ ((m.takeWhile (fun c => c != '#')).dropWhile (fun c => c != '?')).tail,
      c ≠ '#' := by
  intro c hc
  have h1 : c ∈ m.takeWhile (fun c => c != '#') :=
    ((List.tail_sublist _).trans (List.dropWhile_sublist _)).subset hc
  have h2 := List.mem_takeWhile_imp h1
  simpa using h2

theorem pathq_mem (m : Str) :
    (∀ c ∈ (m.takeWhile (fun c => c != '#')).takeWhile (fun c => c != '?'), c ∈ m) ∧
    (∀ c ∈ ((m.takeWhile (fun c => c != '#')).dropWhile (fun c => c != '?')).tail,
      c ∈ m) := by
  constructor
  · intro c hc
    exact ((List.takeWhile_sublist _).trans (List.takeWhile_sublist _)).subset hc
  · intro c hc
    exact (((List.tail_sublist _).trans (List.dropWhile_sublist _)).trans
      (List.takeWhile_sublist _)).subset hc

/-- The path emitted after a netloc split is empty or starts with `/`. -/
theorem path_after_netloc (w : Str) :
    ((w.dropWhile (fun c => !isNetlocEnd c)).takeWhile
        (fun c => c != '#')).takeWhile (fun c => c != '?') = [] ∨
    (((w.dropWhile (fun c => !isNetlocEnd c)).takeWhile
        (fun c => c != '#')).takeWhile (fun c => c != '?')).take 1 = ['/'] := by
  cases hd : w.dropWhile (fun c => !isNetlocEnd c) with
  | nil => left; rfl
  | cons c t =>
    have hc : isNetlocEnd c := by
      have hh := List.head?_dropWhile_not (fun c => !isNetlocEnd c) w
      rw [hd] at hh
      simpa using hh
    unfold isNetlocEnd at hc
    simp only [Bool.or_eq_true, beq_iff_eq] at hc
    rcases hc with (hc | hc) | hc <;> subst hc
    · right
      rw [List.takeWhile_cons_of_pos (by decide), List.takeWhile_cons_of_pos (by decide)]
      rfl
    · left
      rw [List.takeWhile_cons_of_pos (by decide), List.takeWhile_cons_of_neg (by decide)]
    · left
      rw [List.takeWhile_cons_of_neg (by decide)]
      rfl

/-- The `path ++ '?' ++ query` body is a prefix of the string it was split
from. -/
theorem body_prefix (m : Str) :
    ∃ r, m = ((m.takeWhile (fun c => c != '#')).takeWhile (fun c => c != '?') ++
      (if ((m.takeWhile (fun c => c != '#')).dropWhile (fun c => c != '?')).tail = []
       then []
       else '?' :: ((m.takeWhile (fun c => c != '#')).dropWhile
              (fun c => c != '?')).tail)) ++ r := by
  obtain ⟨r1, hr1⟩ := query_body_decomp (m.takeWhile (fun c => c != '#'))
  refine ⟨r1 ++ m.dropWhile (fun c => c != '#'), ?_⟩
  conv_lhs => rw [← List.takeWhile_append_dropWhile (fun c => c != '#') m]
  conv_lhs => rw [hr1]
  rw [List.append_assoc]

theorem body_prefix_bodyOf (m : Str) : ∃ r, m = bodyOf m ++ r := body_prefix m

theorem lead_from_head {m : Str}
    (h1 : ¬ ((m.headD ' ').isAlpha : Prop))
    (h2 : ¬ (isC0OrSpace (m.headD 'x') : Prop)) :
    splitScheme (bodyOf m) = (none, bodyOf m) ∧
    (bodyOf m = [] ∨ ¬ (isC0OrSpace ((bodyOf m).headD 'x') : Prop)) := by
  obtain ⟨r, hr⟩ := body_prefix_bodyOf m
  by_cases hb : bodyOf m = []
  · rw [hb]
    exact ⟨splitScheme_none_of_no_colon (by simp), Or.inl rfl⟩
  · have hheads : ∀ d, (bodyOf m).headD d = m.headD d := by
      intro d
      conv_rhs => rw [hr]
      exact (headD_append_left r hb d).symm
    constructor
    · exact splitScheme_none_of_head (by rw [hheads]; exact h1)
    · right
      rw [hheads]
      exact h2

theorem lead_from_parent {m : Str} (hsch : splitScheme m = (none, m))
    (hhead : m ≠ [] → ¬ (isC0OrSpace (m.headD 'x') : Prop)) :
    splitScheme (bodyOf m) = (none, bodyOf m) ∧
    (bodyOf m = [] ∨ ¬ (isC0OrSpace ((bodyOf m).headD 'x') : Prop)) := by
  obtain ⟨r, hr⟩ := body_prefix_bodyOf m
  by_cases hb : bodyOf m = []
  · rw [hb]
    exact ⟨splitScheme_none_of_no_colon (by simp), Or.inl rfl⟩
  · have hm : m ≠ [] := by
      rw [hr]
      intro he
      exact hb (List.append_eq_nil.mp he).1
    have hheads : ∀ d, (bodyOf m).headD d = m.headD d := by
      intro d
      conv_rhs => rw [hr]
      exact (headD_append_left r hb d).symm
    constructor
    · exact splitScheme_none_of_append (t := bodyOf m) (r := r) (hr ▸ hsch)
    · right
      rw [hheads]
      exact hhead hm

/-- Everything `urlsplit` (with default scheme `''`) returns, with the
fragment dropped, satisfies the reparse invariants. -/
theorem urlsplit_establishes {vb nf : Str → Bool} {u : Str} {s : SplitResult}
    (h : urlsplit vb nf [] u = some s) :
    UrlInv vb nf ⟨s.scheme, s.netloc, s.path, s.query, []⟩ := by
  simp only [urlsplit, dscheme_nil] at h
  set u1 := removeUnsafe (lstripC0 u) with hu1
  rcases hsr : splitScheme u1 with ⟨o, u2⟩
  rw [hsr] at h
  dsimp only at h
  have hsub2 : ∀ c ∈ u2, c ∈ u1 := by
    cases o with
    | none =>
      have he := splitScheme_snd_of_none hsr
      intro c hc
      rw [← he]
      exact hc
    | some sch =>
      obtain ⟨hdec, -, -, -, -⟩ := splitScheme_some_inv hsr
      intro c hc
      rw [hdec]
      exact List.mem_append.mpr (Or.inr (List.mem_cons.mpr (Or.inr hc)))
  have hu1unsafe : ∀ c ∈ u1, ¬ (isUnsafeChar c : Prop) := by
    intro c hc
    have hf := List.of_mem_filter (p := fun c => !isUnsafeChar c) hc
    simpa using hf
  have hscheme_ok : ∀ sch, o = some sch → sch ≠ [] ∧ sch.all isSchemeChar ∧
      (((sch.headD ' ').isAlpha : Prop)) ∧ sch.map lowerChar = sch := by
    intro sch ho
    subst ho
    obtain ⟨-, hval, hne, hall, halpha⟩ := splitScheme_some_inv hsr
    subst hval
    refine ⟨by simpa using hne, ?_, ?_, map_lowerChar_idem _⟩
    · rw [List.all_eq_true]
      intro x hx
      rw [List.mem_map] at hx
      obtain ⟨a, ha, rfl⟩ := hx
      exact isSchemeChar_lowerChar (List.all_eq_true.mp hall a ha)
    · cases hp : u1.takeWhile (fun c => c != ':') with
      | nil => exact absurd hp hne
      | cons a t =>
        rw [hp] at halpha
        simpa using isAlpha_lowerChar (by simpa using halpha)
  have hschemes : ∀ sch, o = some sch → sch ≠ [] := fun sch ho => (hscheme_ok sch ho).1
  by_cases hb : u2.take 2 = ['/', '/']
  · rw [if_pos hb] at h
    simp only [splitNetloc] at h
    by_cases hck :
        netlocChecksOk vb nf ((u2.drop 2).takeWhile (fun c => !isNetlocEnd c))
    · rw [if_pos hck] at h
      have hs := Option.some.inj h
      subst hs
      dsimp only
      refine ⟨?_, ?_, ?_, ?_, ?_, ?_, ?_, ?_, ?_⟩
      · cases o with
        | none => exact Or.inl rfl
        | some sch => exact Or.inr (hscheme_ok sch rfl)
      · intro c hc
        have hmem := List.mem_takeWhile_imp (p := fun c => !isNetlocEnd c) hc
        simpa using hmem
      · exact pathq_sep _
      · exact queryq_sep _
      · rfl
      · intro c hc
        rcases List.mem_append.mp hc with hc1 | hc2
        · rcases List.mem_append.mp hc1 with hn | hp
          · exact hu1unsafe c (hsub2 c ((List.drop_sublist 2 u2).subset
              ((List.takeWhile_sublist _).subset hn)))
          · exact hu1unsafe c (hsub2 c ((List.drop_sublist 2 u2).subset
              ((List.dropWhile_sublist _).subset ((pathq_mem _).1 c hp))))
        · exact hu1unsafe c (hsub2 c ((List.drop_sublist 2 u2).subset
            ((List.dropWhile_sublist _).subset ((pathq_mem _).2 c hc2))))
      · intro _
        exact path_after_netloc (u2.drop 2)
      · exact hck
      · intro _ _ _
        have hlead : splitScheme (bodyOf ((u2.drop 2).dropWhile (fun c => !isNetlocEnd c))) =
            (none, bodyOf ((u2.drop 2).dropWhile (fun c => !isNetlocEnd c))) ∧
            (bodyOf ((u2.drop 2).dropWhile (fun c => !isNetlocEnd c)) = [] ∨
             ¬ (isC0OrSpace ((bodyOf ((u2.drop 2).dropWhile
                  (fun c => !isNetlocEnd c))).headD 'x') : Prop)) := by
          cases hd : (u2.drop 2).dropWhile (fun c => !isNetlocEnd c) with
          | nil => exact lead_from_head (by decide) (by decide)
          | cons c t =>
            have hcend : isNetlocEnd c := by
              have hh := List.head?_dropWhile_not (fun c => !isNetlocEnd c) (u2.drop 2)
              rw [hd] at hh
              simpa using hh
            unfold isNetlocEnd at hcend
            simp only [Bool.or_eq_true, beq_iff_eq] at hcend
            rcases hcend with (hc | hc) | hc <;> subst hc <;>
              exact lead_from_head (by rw [List.headD_cons]; decide)
                (by rw [List.headD_cons]; decide)
        exact hlead
    · rw [if_neg hck] at h
      exact absurd h (by simp)
  · rw [if_neg hb] at h
    dsimp only at h
    rw [if_pos (show netlocChecksOk vb nf [] = true from rfl)] at h
    have hs := Option.some.inj h
    subst hs
    dsimp only
    refine ⟨?_, ?_, ?_, ?_, ?_, ?_, ?_, ?_, ?_⟩
    · cases o with
      | none => exact Or.inl rfl
      | some sch => exact Or.inr (hscheme_ok sch rfl)
    · intro c hc
      exact absurd hc (List.not_mem_nil c)
    · exact pathq_sep _
    · exact queryq_sep _
    · rfl
    · intro c hc
      rcases List.mem_append.mp hc with hc1 | hc2
      · rcases List.mem_append.mp hc1 with hn | hp
        · exact absurd hn (List.not_mem_nil c)
        · exact hu1unsafe c (hsub2 c ((pathq_mem _).1 c hp))
      · exact hu1unsafe c (hsub2 c ((pathq_mem _).2 c hc2))
    · intro hne
      exact absurd rfl hne
    · rfl
    · intro hsch _ _
      have ho : o = none := by
        cases o with
        | none => rfl
        | some sch => exact absurd hsch (by simpa using hschemes sch rfl)
      subst ho
      have he : u2 = u1 := splitScheme_snd_of_none hsr
      subst he
      exact lead_from_parent (by rw [← hsr]) url1_head_not_c0
/-- The explicit shape of an `urlunsplit` serialization with no fragment. -/
theorem urlunsplit_eq (sc nl pa qu : Str) :
    urlunsplit ⟨sc, nl, pa, qu, []⟩ =
      (if sc ≠ [] then
         sc ++ ':' ::
           (if nl ≠ [] ∨ (sc ≠ [] ∧ sc ∈ uses_netloc ∧ pa.take 2 ≠ ['/', '/']) then
              '/' :: '/' :: nl ++ (if pa ≠ [] ∧ pa.take 1 ≠ ['/'] then '/' :: pa else pa)
            else pa)
       else
         (if nl ≠ [] ∨ (sc ≠ [] ∧ sc ∈ uses_netloc ∧ pa.take 2 ≠ ['/', '/']) then
            '/' :: '/' :: nl ++ (if pa ≠ [] ∧ pa.take 1 ≠ ['/'] then '/' :: pa else pa)
          else pa)) ++
      (if qu = [] then [] else '?' :: qu) := by
  unfold urlunsplit
  dsimp only
  rw [if_neg (show ¬(([] : Str) ≠ []) by simp)]
  by_cases hq : qu = []
  · rw [if_neg (show ¬(qu ≠ []) by simpa using hq), if_pos hq, List.append_nil]
  · rw [if_pos hq, if_neg hq]

/-- Splitting the `path ++ '?' ++ query` tail of a serialization recovers
the path, query and empty fragment. -/
theorem tail_split {pa q : Str}
    (hp : ∀ c ∈ pa, c ≠ '?' ∧ c ≠ '#') (hq : ∀ c ∈ q, c ≠ '#') :
    ((pa ++ (if q = [] then [] else '?' :: q)).takeWhile (fun c => c != '#')).takeWhile
        (fun c => c != '?') = pa ∧
    (((pa ++ (if q = [] then [] else '?' :: q)).takeWhile (fun c => c != '#')).dropWhile
        (fun c => c != '?')).tail = q ∧
    ((pa ++ (if q = [] then [] else '?' :: q)).dropWhile (fun c => c != '#')).tail = [] := by
  have hnh : '#' ∉ pa ++ (if q = [] then [] else '?' :: q) := by
    intro hm
    rcases List.mem_append.mp hm with h1 | h2
    · exact (hp _ h1).2 rfl
    · by_cases hqe : q = []
      · rw [if_pos hqe] at h2
        simp at h2
      · rw [if_neg hqe] at h2
        rcases List.mem_cons.mp h2 with h3 | h4
        · exact absurd h3 (by decide)
        · exact (hq _ h4) rfl
  rw [takeWhile_ne_of_not_mem hnh, dropWhile_ne_of_not_mem hnh]
  refine ⟨?_, ?_, rfl⟩
  · by_cases hqe : q = []
    · rw [if_pos hqe, List.append_nil]
      exact takeWhile_ne_of_not_mem (fun hm => (hp _ hm).1 rfl)
    · rw [if_neg hqe]
      exact takeWhile_ne_append (fun hm => (hp _ hm).1 rfl)
  · by_cases hqe : q = []
    · rw [if_pos hqe, List.append_nil,
          dropWhile_ne_of_not_mem (fun hm => (hp _ hm).1 rfl), hqe]
      rfl
    · rw [if_neg hqe, dropWhile_ne_append (fun hm => (hp _ hm).1 rfl)]
      rfl

theorem netloc_split_correct {nl R : Str} (hn : ∀ c ∈ nl, ¬ (isNetlocEnd c : Prop))
    (hR : R ≠ [] → (isNetlocEnd (R.headD ' ') : Prop)) :
    (nl ++ R).takeWhile (fun c => !isNetlocEnd c) = nl ∧
    (nl ++ R).dropWhile (fun c => !isNetlocEnd c) = R :=
  takeWhile_append_stop (p := fun c => !isNetlocEnd c)
    (fun x hx => by simpa using hn x hx)
    (fun hne => by simpa using hR hne)

/-- An `urlunsplit` serialization of clean components has no unsafe
characters. -/
theorem unsplit_clean {sc nl pa qu : Str}
    (hsc : ∀ c ∈ sc, (isSchemeChar c : Prop))
    (hnl : ∀ c ∈ nl, ¬ (isUnsafeChar c : Prop))
    (hpa : ∀ c ∈ pa, ¬ (isUnsafeChar c : Prop))
    (hqu : ∀ c ∈ qu, ¬ (isUnsafeChar c : Prop)) :
    ∀ c ∈ urlunsplit ⟨sc, nl, pa, qu, []⟩, ¬ (isUnsafeChar c : Prop) := by
  intro c hc
  rw [urlunsplit_eq] at hc
  have hW : ∀ cw, cw ∈ (if nl ≠ [] ∨ (sc ≠ [] ∧ sc ∈ uses_netloc ∧ pa.take 2 ≠ ['/', '/']) then
      '/' :: '/' :: nl ++ (if pa ≠ [] ∧ pa.take 1 ≠ ['/'] then '/' :: pa else pa)
      else pa) → ¬ (isUnsafeChar cw : Prop) := by
    intro cw hw
    split at hw
    · rcases List.mem_cons.mp hw with h1 | hw1
      · subst h1; decide
      rcases List.mem_cons.mp hw1 with h1 | hw2
      · subst h1; decide
      rcases List.mem_append.mp hw2 with h1 | hw3
      · exact hnl cw h1
      split at hw3
      · rcases List.mem_cons.mp hw3 with h1 | h2
        · subst h1; decide
        · exact hpa cw h2
      · exact hpa cw hw3
    · exact hpa cw hw
  rcases List.mem_append.mp hc with h1 | h2
  · split at h1
    · rcases List.mem_append.mp h1 with hs | hr
      · exact not_unsafe_of_schemeChar (hsc c hs)
      rcases List.mem_cons.mp hr with he | hw
      · subst he; decide
      · exact hW c hw
    · exact hW c h1
  · split at h2
    · simp at h2
    · rcases List.mem_cons.mp h2 with he | hq
      · subst he; decide
      · exact hqu c hq

theorem headD_irrel {A : Str} (h : A ≠ []) (d1 d2 : Char) : A.headD d1 = A.headD d2 := by
  cases A with
  | nil => exact absurd rfl h
  | cons a t => rfl

theorem take1_slash {pa : Str} (h : pa.take 1 = ['/']) : ∃ t, pa = '/' :: t := by
  cases pa with
  | nil => simp at h
  | cons a t =>
    refine ⟨t, ?_⟩
    simp only [List.take_succ_cons, List.take_zero, List.cons.injEq] at h
    rw [h.1]

/-- Evaluating `urlsplit` (default `''`) on an already-clean string whose
scheme test yields a `//`-headed remainder. -/
theorem urlsplit_eval_netloc {vb nf : Str → Bool} {so : Option Str} {nl pa qu w : Str}
    (hw : removeUnsafe (lstripC0 w) = w)
    (hsch : splitScheme w =
      (so, '/' :: '/' :: (nl ++ (pa ++ (if qu = [] then [] else '?' :: qu)))))
    (hnl : ∀ c ∈ nl, ¬ (isNetlocEnd c : Prop))
    (hR : pa ++ (if qu = [] then [] else '?' :: qu) ≠ [] →
      (isNetlocEnd ((pa ++ (if qu = [] then [] else '?' :: qu)).headD ' ') : Prop))
    (hp : ∀ c ∈ pa, c ≠ '?' ∧ c ≠ '#') (hq : ∀ c ∈ qu, c ≠ '#')
    (hck : netlocChecksOk vb nf nl = true) :
    urlsplit vb nf [] w = some ⟨so.getD [], nl, pa, qu, []⟩ := by
  simp only [urlsplit, dscheme_nil, hw, hsch]
  rw [if_pos (show List.take 2 ('/' :: '/' ::
        (nl ++ (pa ++ (if qu = [] then [] else '?' :: qu)))) = ['/', '/'] from rfl)]
  have hd2 : List.drop 2 ('/' :: '/' ::
      (nl ++ (pa ++ (if qu = [] then [] else '?' :: qu)))) =
      nl ++ (pa ++ (if qu = [] then [] else '?' :: qu)) := rfl
  simp only [splitNetloc, hd2]
  rw [(netloc_split_correct hnl hR).1, (netloc_split_correct hnl hR).2]
  rw [if_pos hck]
  rw [(tail_split hp hq).1, (tail_split hp hq).2.1, (tail_split hp hq).2.2]

/-- Evaluating `urlsplit` (default `''`) on an already-clean string whose
scheme test yields a remainder that does not start with `//`. -/
theorem urlsplit_eval_nonetloc {vb nf : Str → Bool} {so : Option Str} {pa qu w : Str}
    (hw : removeUnsafe (lstripC0 w) = w)
    (hsch : splitScheme w = (so, pa ++ (if qu = [] then [] else '?' :: qu)))
    (hb : (pa ++ (if qu = [] then [] else '?' :: qu)).take 2 ≠ ['/', '/'])
    (hp : ∀ c ∈ pa, c ≠ '?' ∧ c ≠ '#') (hq : ∀ c ∈ qu, c ≠ '#') :
    urlsplit vb nf [] w = some ⟨so.getD [], [], pa, qu, []⟩ := by
  simp only [urlsplit, dscheme_nil, hw, hsch]
  rw [if_neg hb]
  dsimp only
  rw [if_pos (show netlocChecksOk vb nf [] = true from rfl)]
  rw [(tail_split hp hq).1, (tail_split hp hq).2.1, (tail_split hp hq).2.2]

/-- Re-parsing an `urlunsplit` serialization of an invariant-satisfying,
stable split result recovers it, up to the canonical `/`-prepend. -/
theorem urlsplit_urlunsplit {vb nf : Str → Bool} {s : SplitResult}
    (hinv : UrlInv vb nf s) (hstab : StableS s) :
    urlsplit vb nf [] (urlunsplit s) = some (canonS s) := by
  obtain ⟨sc, nl, pa, qu, fr⟩ := s
  obtain ⟨hscheme_ok, hnetsep, hpathsep, hquerysep, hfragnil, hnounsafe, hnetpath,
    hchecks, hlead⟩ := hinv
  simp only [StableS] at hstab
  dsimp only at *
  subst hfragnil
  have hscAll : ∀ c ∈ sc, (isSchemeChar c : Prop) := by
    rcases hscheme_ok with h | ⟨-, hall, -, -⟩
    · intro c hc
      rw [h] at hc
      simp at hc
    · exact fun c hc => List.all_eq_true.mp hall c hc
  have hnlU : ∀ c ∈ nl, ¬ (isUnsafeChar c : Prop) := fun c hc =>
    hnounsafe c (List.mem_append.mpr (Or.inl (List.mem_append.mpr (Or.inl hc))))
  have hpaU : ∀ c ∈ pa, ¬ (isUnsafeChar c : Prop) := fun c hc =>
    hnounsafe c (List.mem_append.mpr (Or.inl (List.mem_append.mpr (Or.inr hc))))
  have hquU : ∀ c ∈ qu, ¬ (isUnsafeChar c : Prop) := fun c hc =>
    hnounsafe c (List.mem_append.mpr (Or.inr hc))
  have hclean := unsplit_clean hscAll hnlU hpaU hquU
  set Qif : Str := if qu = [] then [] else '?' :: qu with hQif
  have hQ : Qif = [] ∨ ∃ q, Qif = '?' :: q := by
    by_cases hqe : qu = []
    · exact Or.inl (by rw [hQif, if_pos hqe])
    · exact Or.inr ⟨qu, by rw [hQif, if_neg hqe]⟩
  by_cases hA : nl ≠ []
  · -- netloc present: the serialization is `[scheme:]//netloc path [?query]`
    have hpre : ¬(pa ≠ [] ∧ pa.take 1 ≠ ['/']) := by
      rcases hnetpath hA with hpa | hpa
      · rintro ⟨h1, -⟩
        exact h1 hpa
      · rintro ⟨-, h2⟩
        exact h2 hpa
    have hcanon : canonS ⟨sc, nl, pa, qu, []⟩ = ⟨sc, nl, pa, qu, []⟩ := by
      unfold canonS
      rw [if_neg]
      rintro ⟨h1, -⟩
      exact hA h1
    have hv : urlunsplit ⟨sc, nl, pa, qu, []⟩ =
        (if sc ≠ [] then sc ++ ':' :: ('/' :: '/' :: (nl ++ (pa ++ Qif)))
         else '/' :: '/' :: (nl ++ (pa ++ Qif))) := by
      rw [urlunsplit_eq]
      rw [if_pos (Or.inl hA), if_neg hpre]
      by_cases hsc : sc ≠ []
      · rw [if_pos hsc, if_pos hsc]
        simp [List.cons_append, List.append_assoc]
      · rw [if_neg hsc, if_neg hsc]
        simp [List.cons_append, List.append_assoc]
    have hhead : urlunsplit ⟨sc, nl, pa, qu, []⟩ ≠ [] →
        ¬ (isC0OrSpace ((urlunsplit ⟨sc, nl, pa, qu, []⟩).headD 'x') : Prop) := by
      intro _
      rw [hv]
      by_cases hsc : sc ≠ []
      · rw [if_pos hsc, headD_append_left _ hsc 'x']
        rcases hscheme_ok with h | ⟨-, -, halpha, -⟩
        · exact absurd h hsc
        · rw [headD_irrel hsc 'x' ' ']
          exact not_c0_of_isAlpha halpha
      · rw [if_neg hsc, List.headD_cons]
        decide
    have hw := clean_fixpoint hclean hhead
    have hR : pa ++ Qif ≠ [] → (isNetlocEnd ((pa ++ Qif).headD ' ') : Prop) := by
      intro hne
      rcases hnetpath hA with hpa | hpa
      · rw [hpa, List.nil_append] at hne ⊢
        rcases hQ with hq | ⟨q, hq⟩
        · exact absurd hq hne
        · rw [hq, List.headD_cons]
          decide
      · obtain ⟨t, rfl⟩ := take1_slash hpa
        rw [List.cons_append, List.headD_cons]
        decide
    rw [hcanon]
    by_cases hsc : sc ≠ []
    · rcases hscheme_ok with h | ⟨-, hall, halpha, hlow⟩
      · exact absurd h hsc
      have hsch : splitScheme (urlunsplit ⟨sc, nl, pa, qu, []⟩) =
          (some sc, '/' :: '/' :: (nl ++ (pa ++ Qif))) := by
        rw [hv, if_pos hsc, splitScheme_some hsc hall halpha, hlow]
      simpa using @urlsplit_eval_netloc vb nf _ _ _ _ _ hw hsch hnetsep hR
        hpathsep hquerysep hchecks
    · have hsch : splitScheme (urlunsplit ⟨sc, nl, pa, qu, []⟩) =
          (none, '/' :: '/' :: (nl ++ (pa ++ Qif))) := by
        rw [hv, if_neg hsc]
        exact splitScheme_none_of_head (by rw [List.headD_cons]; decide)
      push_neg at hsc
      subst hsc
      simpa using @urlsplit_eval_netloc vb nf _ _ _ _ _ hw hsch hnetsep hR
        hpathsep hquerysep hchecks
  · push_neg at hA
    subst hA
    have hstab2 : pa.take 2 ≠ ['/', '/'] := by
      rcases hstab with h | h
      · exact absurd rfl h
      · exact h
    by_cases hB : sc ≠ [] ∧ sc ∈ uses_netloc
    · -- empty netloc but a netloc-carrying scheme: `scheme://path'[?query]`
      obtain ⟨hscne, hmem⟩ := hB
      rcases hscheme_ok with h | ⟨-, hall, halpha, hlow⟩
      · exact absurd h hscne
      have hhead : ∀ X : Str, urlunsplit ⟨sc, [], pa, qu, []⟩ = sc ++ ':' :: X →
          urlunsplit ⟨sc, [], pa, qu, []⟩ ≠ [] →
          ¬ (isC0OrSpace ((urlunsplit ⟨sc, [], pa, qu, []⟩).headD 'x') : Prop) := by
        intro X hX _
        rw [hX, headD_append_left _ hscne 'x', headD_irrel hscne 'x' ' ']
        exact not_c0_of_isAlpha halpha
      by_cases hpre : pa ≠ [] ∧ pa.take 1 ≠ ['/']
      · -- the `/`-prepend fires
        have hcanon : canonS ⟨sc, [], pa, qu, []⟩ = ⟨sc, [], '/' :: pa, qu, []⟩ := by
          unfold canonS
          rw [if_pos ⟨rfl, hscne, hmem, hstab2, hpre.1, hpre.2⟩]
        have hv : urlunsplit ⟨sc, [], pa, qu, []⟩ =
            sc ++ ':' :: ('/' :: '/' :: (('/' :: pa) ++ Qif)) := by
          rw [urlunsplit_eq]
          rw [if_pos (Or.inr ⟨hscne, hmem, hstab2⟩), if_pos hpre, if_pos hscne]
          simp [List.cons_append, List.append_assoc]
        have hw := clean_fixpoint hclean (hhead _ hv)
        have hsch : splitScheme (urlunsplit ⟨sc, [], pa, qu, []⟩) =
            (some sc, '/' :: '/' :: (('/' :: pa) ++ Qif)) := by
          rw [hv, splitScheme_some hscne hall halpha, hlow]
        have hp2 : ∀ c ∈ '/' :: pa, c ≠ '?' ∧ c ≠ '#' := by
          intro c hc
          rcases List.mem_cons.mp hc with h1 | h2
          · subst h1
            exact ⟨by decide, by decide⟩
          · exact hpathsep c h2
        have hR : ('/' :: pa) ++ Qif ≠ [] →
            (isNetlocEnd ((('/' :: pa) ++ Qif).headD ' ') : Prop) := by
          intro _
          rw [List.cons_append, List.headD_cons]
          decide
        rw [hcanon]
        simpa using @urlsplit_eval_netloc vb nf _ [] _ _ _
          hw hsch (fun c hc => absurd hc (List.not_mem_nil c)) hR hp2 hquerysep rfl
      · -- no prepend: the path is empty or already `/`-headed
        have hcanon : canonS ⟨sc, [], pa, qu, []⟩ = ⟨sc, [], pa, qu, []⟩ := by
          unfold canonS
          rw [if_neg]
          rintro ⟨-, -, -, -, h5, h6⟩
          exact hpre ⟨h5, h6⟩
        have hv : urlunsplit ⟨sc, [], pa, qu, []⟩ =
            sc ++ ':' :: ('/' :: '/' :: (pa ++ Qif)) := by
          rw [urlunsplit_eq]
          rw [if_pos (Or.inr ⟨hscne, hmem, hstab2⟩), if_neg hpre, if_pos hscne]
          simp [List.cons_append, List.append_assoc]
        have hw := clean_fixpoint hclean (hhead _ hv)
        have hsch : splitScheme (urlunsplit ⟨sc, [], pa, qu, []⟩) =
            (some sc, '/' :: '/' :: (pa ++ Qif)) := by
          rw [hv, splitScheme_some hscne hall halpha, hlow]
        have hR : pa ++ Qif ≠ [] → (isNetlocEnd ((pa ++ Qif).headD ' ') : Prop) := by
          intro hne
          by_cases hpa : pa = []
          · rw [hpa, List.nil_append] at hne ⊢
            rcases hQ with hq | ⟨q, hq⟩
            · exact absurd hq hne
            · rw [hq, List.headD_cons]
              decide
          · have h1 : pa.take 1 = ['/'] := by
              by_contra hne1
              exact hpre ⟨hpa, hne1⟩
            obtain ⟨t, rfl⟩ := take1_slash h1
            rw [List.cons_append, List.headD_cons]
            decide
        rw [hcanon]
        simpa using @urlsplit_eval_netloc vb nf _ [] _ _ _
          hw hsch (fun c hc => absurd hc (List.not_mem_nil c)) hR hpathsep hquerysep rfl
    · -- no netloc in the serialization at all
      have hcanon : canonS ⟨sc, [], pa, qu, []⟩ = ⟨sc, [], pa, qu, []⟩ := by
        unfold canonS
        rw [if_neg]
        rintro ⟨-, h2, h3, -⟩
        exact hB ⟨h2, h3⟩
      have hnotb : ¬(([] : Str) ≠ [] ∨ (sc ≠ [] ∧ sc ∈ uses_netloc ∧
          pa.take 2 ≠ ['/', '/'])) := by
        rintro (h | ⟨h1, h2, -⟩)
        · exact h rfl
        · exact hB ⟨h1, h2⟩
      have htake : (pa ++ Qif).take 2 ≠ ['/', '/'] := take2_ne_slashslash hstab2 hQ
      rw [hcanon]
      by_cases hsc : sc ≠ []
      · rcases hscheme_ok with h | ⟨-, hall, halpha, hlow⟩
        · exact absurd h hsc
        have hv : urlunsplit ⟨sc, [], pa, qu, []⟩ = sc ++ ':' :: (pa ++ Qif) := by
          rw [urlunsplit_eq]
          rw [if_neg hnotb, if_pos hsc]
          simp [List.cons_append, List.append_assoc]
        have hhead : urlunsplit ⟨sc, [], pa, qu, []⟩ ≠ [] →
            ¬ (isC0OrSpace ((urlunsplit ⟨sc, [], pa, qu, []⟩).headD 'x') : Prop) := by
          intro _
          rw [hv, headD_append_left _ hsc 'x', headD_irrel hsc 'x' ' ']
          exact not_c0_of_isAlpha halpha
        have hw := clean_fixpoint hclean hhead
        have hsch : splitScheme (urlunsplit ⟨sc, [], pa, qu, []⟩) =
            (some sc, pa ++ Qif) := by
          rw [hv, splitScheme_some hsc hall halpha, hlow]
        simpa using @urlsplit_eval_nonetloc vb nf _ _ _ _ hw hsch htake
          hpathsep hquerysep
      · push_neg at hsc
        subst hsc
        have hleadr := hlead rfl rfl hstab2
        simp only [splitBody] at hleadr
        have hv : urlunsplit ⟨[], [], pa, qu, []⟩ = pa ++ Qif := by
          rw [urlunsplit_eq]
          rw [if_neg hnotb, if_neg (by simp)]
        have hhead : urlunsplit ⟨[], [], pa, qu, []⟩ ≠ [] →
            ¬ (isC0OrSpace ((urlunsplit ⟨[], [], pa, qu, []⟩).headD 'x') : Prop) := by
          intro hne
          rw [hv] at hne ⊢
          rcases hleadr.2 with h | h
          · exact absurd h hne
          · exact h
        have hw := clean_fixpoint hclean hhead
        have hsch : splitScheme (urlunsplit ⟨[], [], pa, qu, []⟩) =
            (none, pa ++ Qif) := by
          rw [hv]
          exact hleadr.1
        simpa using @urlsplit_eval_nonetloc vb nf _ _ _ _ hw hsch htake
          hpathsep hquerysep

/-! ## `splitparams` lemmas -/

theorem contains_eq_true_iff {l : Str} {a : Char} : l.contains a = true ↔ a ∈ l :=
  List.elem_iff

/-- Transfer of a failed scheme test across a change of suffix: if the
scheme test fails on `A ++ B` it also fails on `A ++ C`, provided `C` is
empty or `?`-headed. -/
theorem splitScheme_none_extend {A B C : Str}
    (hm : splitScheme (A ++ B) = (none, A ++ B))
    (hC : C = [] ∨ ∃ q, C = '?' :: q) :
    splitScheme (A ++ C) = (none, A ++ C) := by
  by_cases hc : ':' ∈ A
  · have hdec := List.takeWhile_append_dropWhile (fun x => x != ':') A
    set T := A.takeWhile (fun x => x != ':') with hT
    have hdrop := dropWhile_ne_eq_cons hc
    set R := (A.dropWhile (fun x => x != ':')).tail with hR
    have hA : A = T ++ ':' :: R := by
      conv_lhs => rw [← hdec]
      rw [hdrop]
    have hnT : ':' ∉ T := by
      intro hmem
      have := List.mem_takeWhile_imp hmem
      simp at this
    have h1 : A ++ B = T ++ ':' :: (R ++ B) := by rw [hA]; simp
    have h2 : A ++ C = T ++ ':' :: (R ++ C) := by rw [hA]; simp
    have hcB : ':' ∈ A ++ B := List.mem_append.mpr (Or.inl hc)
    have hcC : ':' ∈ A ++ C := List.mem_append.mpr (Or.inl hc)
    unfold splitScheme at hm ⊢
    rw [if_pos hcB, h1, takeWhile_ne_append hnT] at hm
    rw [if_pos hcC, h2, takeWhile_ne_append hnT]
    by_cases hcond : T ≠ [] ∧ T.all isSchemeChar ∧ ((T.headD ' ').isAlpha : Prop)
    · rw [if_pos hcond] at hm
      simp at hm
    · rw [if_neg hcond]
  · rcases hC with rfl | ⟨q, rfl⟩
    · rw [List.append_nil]
      exact splitScheme_none_of_no_colon hc
    · by_cases hcq : ':' ∈ A ++ '?' :: q
      · have hcond : ¬ ((A ++ '?' :: q).takeWhile (fun c => c != ':') ≠ [] ∧
            ((A ++ '?' :: q).takeWhile (fun c => c != ':')).all isSchemeChar ∧
            ((((A ++ '?' :: q).takeWhile (fun c => c != ':')).headD ' ').isAlpha : Prop)) := by
          rintro ⟨-, hall, -⟩
          have hpre : '?' ∈ (A ++ '?' :: q).takeWhile (fun c => c != ':') := by
            rw [List.takeWhile_append_of_pos
                  (fun a ha => bne_iff_ne.mpr (fun he => hc (by rw [← he]; exact ha)))]
            refine List.mem_append.mpr (Or.inr ?_)
            rw [List.takeWhile_cons_of_pos (by decide)]
            exact List.mem_cons_self _ _
          have := List.all_eq_true.mp hall '?' hpre
          exact absurd this (by decide)
        unfold splitScheme
        rw [if_pos hcq, if_neg hcond]
      · exact splitScheme_none_of_no_colon hcq

theorem mem_afterLastChar {c x : Char} {l : Str} (h : x ∈ afterLastChar c l) : x ∈ l := by
  unfold afterLastChar at h
  rw [List.mem_reverse] at h
  have := mem_of_mem_takeWhile h
  rwa [List.mem_reverse] at this

/-- The two reversed halves of a `takeWhile`/`dropWhile` split of a reversed
list rebuild the list. -/
theorem rev_take_drop_split (p : Char → Bool) (l : Str) :
    (l.reverse.dropWhile p).reverse ++ (l.reverse.takeWhile p).reverse = l := by
  rw [← List.reverse_append, List.takeWhile_append_dropWhile, List.reverse_reverse]

/-- What `_splitparams` returns on a `;`-containing string: the params-side
invariants hold of the two components, and they recombine to the input
(possibly short of a trailing `;` carrying empty params). -/
theorem splitparams_establishes {u : Str} (hmem : ';' ∈ u) :
    '/' ∉ (splitparams u).2 ∧
    ('/' ∈ (splitparams u).1 → ';' ∉ afterLastChar '/' (splitparams u).1) ∧
    ('/' ∉ (splitparams u).1 → ';' ∉ (splitparams u).1) ∧
    ((splitparams u).1 ++ ';' :: (splitparams u).2 = u ∨
     ((splitparams u).2 = [] ∧ (splitparams u).1 = u)) := by
  unfold splitparams
  by_cases hs : '/' ∈ u
  · rw [if_pos (contains_eq_true_iff.mpr hs)]
    set after := (u.reverse.takeWhile (fun c => c != '/')).reverse with hafter
    set before := (u.reverse.dropWhile (fun c => c != '/')).reverse with hbefore
    have hslash : '/' ∉ after := by
      intro hmem2
      rw [hafter, List.mem_reverse] at hmem2
      have := List.mem_takeWhile_imp hmem2
      simp at this
    have hdropc : u.reverse.dropWhile (fun c => c != '/') =
        '/' :: (u.reverse.dropWhile (fun c => c != '/')).tail :=
      dropWhile_ne_eq_cons (List.mem_reverse.mpr hs)
    have hba : before ++ after = u := by
      rw [hbefore, hafter]
      exact rev_take_drop_split _ u
    have hbslash : '/' ∈ before := by
      rw [hbefore, hdropc]
      simp
    by_cases hsc : ';' ∈ after
    · rw [if_pos (contains_eq_true_iff.mpr hsc)]
      dsimp only
      have hadec : after = after.takeWhile (fun c => c != ';') ++
          ';' :: (after.dropWhile (fun c => c != ';')).tail := by
        conv_lhs => rw [← List.takeWhile_append_dropWhile (fun c => c != ';') after,
          dropWhile_ne_eq_cons hsc]
      refine ⟨?_, ?_, ?_, ?_⟩
      · intro hx
        exact hslash (((List.tail_sublist _).trans (List.dropWhile_sublist _)).subset hx)
      · intro _
        have hbrev : before.reverse = '/' :: (u.reverse.dropWhile (fun c => c != '/')).tail := by
          rw [hbefore, List.reverse_reverse]
          exact hdropc
        have hcalc : afterLastChar '/' (before ++ after.takeWhile (fun c => c != ';')) =
            after.takeWhile (fun c => c != ';') := by
          unfold afterLastChar
          rw [List.reverse_append, hbrev, takeWhile_ne_append
                (fun hx => hslash (mem_of_mem_takeWhile (List.mem_reverse.mp hx))),
              List.reverse_reverse]
        rw [hcalc]
        intro hx
        have := List.mem_takeWhile_imp hx
        simp at this
      · intro hno
        exact absurd (List.mem_append.mpr (Or.inl hbslash)) hno
      · left
        rw [List.append_assoc, ← hadec]
        exact hba
    · rw [if_neg (fun hx => hsc (contains_eq_true_iff.mp hx))]
      dsimp only
      refine ⟨List.not_mem_nil '/', ?_, ?_, Or.inr ⟨rfl, rfl⟩⟩
      · intro _
        have hcalc : afterLastChar '/' u = after := by
          unfold afterLastChar
          rw [hafter]
        rw [hcalc]
        exact hsc
      · intro hno
        exact absurd hs hno
  · rw [if_neg (fun hx => hs (contains_eq_true_iff.mp hx))]
    dsimp only
    have hdec : u.takeWhile (fun c => c != ';') ++
        ';' :: (u.dropWhile (fun c => c != ';')).tail = u := by
      conv_rhs => rw [← List.takeWhile_append_dropWhile (fun c => c != ';') u,
        dropWhile_ne_eq_cons hmem]
    refine ⟨?_, ?_, ?_, Or.inl hdec⟩
    · intro hx
      apply hs
      rw [← hdec]
      exact List.mem_append.mpr (Or.inr (List.mem_cons.mpr (Or.inr hx)))
    · intro hx
      exact absurd (mem_of_mem_takeWhile hx) hs
    · intro _ hx
      have := List.mem_takeWhile_imp hx
      simp at this

/-- `_splitparams` undoes the `path ++ ';' ++ params` recombination done by
`urlunparse`, given the params-side invariants. -/
theorem splitparams_roundtrip_pos {path params : Str} (h1 : '/' ∉ params)
    (h2 : '/' ∈ path → ';' ∉ afterLastChar '/' path)
    (h3 : '/' ∉ path → ';' ∉ path) :
    splitparams (path ++ ';' :: params) = (path, params) := by
  by_cases hp : '/' ∈ path
  · have hS : ';' ∉ (path.reverse.takeWhile (fun c => c != '/')).reverse := by
      have := h2 hp
      unfold afterLastChar at this
      exact this
    have hL : ∀ x ∈ params.reverse ++ [';'], ((x != '/') = true) := by
      intro x hx
      rcases List.mem_append.mp hx with hx | hx
      · exact bne_iff_ne.mpr (fun he => h1 (by rw [← he]; exact List.mem_reverse.mp hx))
      · have hxx : x = ';' := by simpa using hx
        subst hxx
        decide
    have hrev : (path ++ ';' :: params).reverse =
        (params.reverse ++ [';']) ++ path.reverse := by
      rw [List.reverse_append, List.reverse_cons]
    have hA : ((path ++ ';' :: params).reverse.takeWhile (fun c => c != '/')).reverse =
        (path.reverse.takeWhile (fun c => c != '/')).reverse ++ ';' :: params := by
      rw [hrev, List.takeWhile_append_of_pos hL, List.reverse_append, List.reverse_append,
          List.reverse_reverse, List.reverse_singleton]
      rfl
    have hB : ((path ++ ';' :: params).reverse.dropWhile (fun c => c != '/')).reverse =
        (path.reverse.dropWhile (fun c => c != '/')).reverse := by
      rw [hrev, List.dropWhile_append_of_pos hL]
    have hmem : '/' ∈ path ++ ';' :: params := List.mem_append.mpr (Or.inl hp)
    unfold splitparams
    rw [if_pos (contains_eq_true_iff.mpr hmem), hA, hB]
    rw [if_pos (contains_eq_true_iff.mpr
          (List.mem_append.mpr (Or.inr (List.mem_cons_self _ _))))]
    rw [takeWhile_ne_append hS, dropWhile_ne_append hS, List.tail_cons,
        rev_take_drop_split]
  · have hnp : '/' ∉ path ++ ';' :: params := by
      intro hx
      rcases List.mem_append.mp hx with hx | hx
      · exact hp hx
      · rcases List.mem_cons.mp hx with hx | hx
        · exact absurd hx (by decide)
        · exact h1 hx
    unfold splitparams
    rw [if_neg (fun hx => hnp (contains_eq_true_iff.mp hx))]
    rw [takeWhile_ne_append (h3 hp), dropWhile_ne_append (h3 hp), List.tail_cons]

/-- A path satisfying the params-side invariants with empty params splits
into itself. -/
theorem splitparams_roundtrip_none {path : Str} (hmem : ';' ∈ path)
    (h2 : '/' ∈ path → ';' ∉ afterLastChar '/' path)
    (h3 : '/' ∉ path → ';' ∉ path) :
    splitparams path = (path, []) := by
  have hp : '/' ∈ path := by
    by_contra hnp
    exact h3 hnp hmem
  have hS : ';' ∉ (path.reverse.takeWhile (fun c => c != '/')).reverse := by
    have := h2 hp
    unfold afterLastChar at this
    exact this
  unfold splitparams
  rw [if_pos (contains_eq_true_iff.mpr hp)]
  rw [if_neg (fun hx => hS (contains_eq_true_iff.mp hx))]

theorem take2_append_semi {w : Str} (h : (w ++ [';']).take 2 = ['/', '/']) :
    w.take 2 = ['/', '/'] := by
  match w, h with
  | [], h => exact absurd h (by decide)
  | [a], h =>
    exfalso
    have h2 : [a, ';'] = ['/', '/'] := h
    exact absurd (List.cons.inj h2).2 (by decide)
  | a :: b :: t, h => exact h

theorem take1_append_semi {w : Str} (hne : w ≠ [])
    (h : (w ++ [';']).take 1 = ['/']) : w.take 1 = ['/'] := by
  match w, hne, h with
  | [], hne, h => exact absurd rfl hne
  | a :: t, _, h => exact h

/-- The invariants survive dropping a trailing `;` from the path (which is
what recombining an empty params list does). -/
theorem UrlInv_shorten_path {vb nf : Str → Bool} {sc nl pa qu pa' : Str}
    (h : UrlInv vb nf ⟨sc, nl, pa, qu, []⟩)
    (hrel : pa = pa' ∨ pa' ++ [';'] = pa) :
    UrlInv vb nf ⟨sc, nl, pa', qu, []⟩ := by
  rcases hrel with rfl | hrel
  · exact h
  obtain ⟨hso, hns, hps, hqs, -, hnu, hnp, hck, hld⟩ := h
  dsimp only at *
  subst hrel
  refine ⟨hso, hns, ?_, hqs, rfl, ?_, ?_, hck, ?_⟩
  · intro c hc
    exact hps c (List.mem_append.mpr (Or.inl hc))
  · intro c hc
    apply hnu c
    rcases List.mem_append.mp hc with hc1 | hc2
    · rcases List.mem_append.mp hc1 with hn | hpm
      · exact List.mem_append.mpr (Or.inl (List.mem_append.mpr (Or.inl hn)))
      · exact List.mem_append.mpr (Or.inl (List.mem_append.mpr (Or.inr
          (List.mem_append.mpr (Or.inl hpm)))))
    · exact List.mem_append.mpr (Or.inr hc2)
  · intro hne
    rcases hnp hne with h0 | h1
    · exact absurd h0 (by simp)
    · cases pa' with
      | nil => exact Or.inl rfl
      | cons a t => exact Or.inr (take1_append_semi (by simp) h1)
  · intro hsc0 hnl0 htk2
    have htk2' : (pa' ++ [';']).take 2 ≠ ['/', '/'] :=
      fun hx => htk2 (take2_append_semi hx)
    have hl := hld hsc0 hnl0 htk2'
    simp only [splitBody] at hl ⊢
    have hQ : (if qu = [] then ([] : Str) else '?' :: qu) = [] ∨
        ∃ q, (if qu = [] then ([] : Str) else '?' :: qu) = '?' :: q := by
      by_cases hqe : qu = []
      · exact Or.inl (if_pos hqe)
      · exact Or.inr ⟨qu, if_neg hqe⟩
    have h1 : splitScheme (pa' ++ ';' :: (if qu = [] then ([] : Str) else '?' :: qu)) =
        (none, pa' ++ ';' :: (if qu = [] then ([] : Str) else '?' :: qu)) := by
      have hx := hl.1
      rwa [List.append_assoc, List.singleton_append] at hx
    refine ⟨splitScheme_none_extend h1 hQ, ?_⟩
    cases pa' with
    | nil =>
      by_cases hqe : qu = []
      · left
        rw [if_pos hqe]
        rfl
      · right
        rw [if_neg hqe]
        rw [List.nil_append, List.headD_cons]
        decide
    | cons a t =>
      right
      rcases hl.2 with h0 | h0
      · exact absurd h0 (by simp)
      · have hh : (((a :: t) ++ [';']) ++
            (if qu = [] then ([] : Str) else '?' :: qu)).headD 'x' = a := rfl
        rw [hh] at h0
        have hh2 : ((a :: t) ++ (if qu = [] then ([] : Str) else '?' :: qu)).headD 'x' =
            a := rfl
        rw [hh2]
        exact h0

/-- A `#`-free URL splits with an empty fragment. -/
theorem urlsplit_frag_nil {vb nf : Str → Bool} {u : Str} {s : SplitResult}
    (hno : '#' ∉ u) (h : urlsplit vb nf [] u = some s) : s.fragment = [] := by
  simp only [urlsplit, dscheme_nil] at h
  set u1 := removeUnsafe (lstripC0 u) with hu1
  have hno1 : '#' ∉ u1 := by
    intro hx
    rw [hu1] at hx
    unfold removeUnsafe lstripC0 at hx
    exact hno ((List.dropWhile_sublist _).subset ((List.filter_sublist _).subset hx))
  rcases hsr : splitScheme u1 with ⟨o, u2⟩
  rw [hsr] at h
  dsimp only at h
  have hno2 : '#' ∉ u2 := by
    intro hx
    apply hno1
    cases o with
    | none =>
      rw [splitScheme_snd_of_none hsr] at hx
      exact hx
    | some sch =>
      obtain ⟨hdec, -, -, -, -⟩ := splitScheme_some_inv hsr
      rw [hdec]
      exact List.mem_append.mpr (Or.inr (List.mem_cons.mpr (Or.inr hx)))
  by_cases hb : u2.take 2 = ['/', '/']
  · rw [if_pos hb] at h
    simp only [splitNetloc] at h
    by_cases hck : netlocChecksOk vb nf ((u2.drop 2).takeWhile (fun c => !isNetlocEnd c))
    · rw [if_pos hck] at h
      have hs := Option.some.inj h
      subst hs
      dsimp only
      have hmem : '#' ∉ (u2.drop 2).dropWhile (fun c => !isNetlocEnd c) := by
        intro hx
        exact hno2 ((List.drop_sublist 2 u2).subset ((List.dropWhile_sublist _).subset hx))
      rw [dropWhile_ne_of_not_mem hmem]
      rfl
    · rw [if_neg hck] at h
      exact absurd h (by simp)
  · rw [if_neg hb] at h
    dsimp only at h
    rw [if_pos (show netlocChecksOk vb nf [] = true from rfl)] at h
    have hs := Option.some.inj h
    subst hs
    dsimp only
    rw [dropWhile_ne_of_not_mem hno2]
    rfl

/-- A `#`-free URL parses with an empty fragment. -/
theorem urlparse_frag_nil {vb nf : Str → Bool} {u : Str} {p : ParseResult}
    (hno : '#' ∉ u) (h : urlparse vb nf [] u = some p) : p.fragment = [] := by
  unfold urlparse at h
  rcases hx : urlsplit vb nf [] u with _ | s
  · rw [hx] at h
    simp at h
  · rw [hx] at h
    simp only [Option.map_some'] at h
    have hps := Option.some.inj h
    subst hps
    exact urlsplit_frag_nil hno hx

/-- Everything `urlparse` (default scheme `''`) returns satisfies the split
invariants after params recombination and fragment drop, plus the
params-side invariants. -/
theorem urlparse_establishes {vb nf : Str → Bool} {u : Str} {p : ParseResult}
    (h : urlparse vb nf [] u = some p) :
    UrlInv vb nf (combineParams (dropFrag p)) ∧ ParamsInv p := by
  unfold urlparse at h
  rcases hx : urlsplit vb nf [] u with _ | s
  · rw [hx] at h
    simp at h
  · rw [hx] at h
    simp only [Option.map_some'] at h
    have hps := Option.some.inj h
    have hinv := urlsplit_establishes hx
    by_cases hsc : ';' ∈ s.path
    · rw [if_pos (contains_eq_true_iff.mpr hsc)] at hps
      obtain ⟨hP1, hP2, hP3, hrel⟩ := splitparams_establishes hsc
      subst hps
      constructor
      · simp only [combineParams, dropFrag]
        by_cases hne : (splitparams s.path).2 ≠ []
        · rw [if_pos hne]
          rcases hrel with hrel | hrel
          · rw [hrel]
            exact hinv
          · exact absurd hrel.1 hne
        · rw [if_neg hne]
          rcases hrel with hrel | hrel
          · refine UrlInv_shorten_path hinv (Or.inr ?_)
            rw [not_not] at hne
            conv_rhs => rw [← hrel]
            rw [hne]
          · exact UrlInv_shorten_path hinv (Or.inl hrel.2.symm)
      · exact ⟨hP1, hP2, hP3⟩
    · rw [if_neg (fun hy => hsc (contains_eq_true_iff.mp hy))] at hps
      subst hps
      dsimp only
      refine ⟨?_, ?_, ?_, fun _ => hsc⟩
      · simp only [combineParams, dropFrag]
        rw [if_neg (by simp)]
        exact hinv
      · exact List.not_mem_nil '/'
      · intro _ hy
        exact hsc (mem_afterLastChar hy)

/-! ## Parse-level reparse -/

/-- The `/`-prepend recorded by `canonS` is what `urlunsplit` inserts
itself: serialization absorbs it. -/
theorem urlunsplit_canonS (s : SplitResult) : urlunsplit (canonS s) = urlunsplit s := by
  unfold canonS
  by_cases hc : s.netloc = [] ∧ s.scheme ≠ [] ∧ s.scheme ∈ uses_netloc ∧
      s.path.take 2 ≠ ['/', '/'] ∧ s.path ≠ [] ∧ s.path.take 1 ≠ ['/']
  · rw [if_pos hc]
    obtain ⟨sc, nl, pa, qu, fr⟩ := s
    obtain ⟨hn, hs, hu, h2, hne, h1⟩ := hc
    dsimp only at hn hs hu h2 hne h1 ⊢
    subst hn
    unfold urlunsplit
    dsimp only
    have hc1 : ('/' :: pa).take 2 ≠ ['/', '/'] := by
      rw [List.take_succ_cons]
      intro hx
      exact h1 (List.cons.inj hx).2
    rw [if_pos (show ([] : Str) ≠ [] ∨ sc ≠ [] ∧ sc ∈ uses_netloc ∧
          ('/' :: pa).take 2 ≠ ['/', '/'] from Or.inr ⟨hs, hu, hc1⟩)]
    rw [if_pos (show ([] : Str) ≠ [] ∨ sc ≠ [] ∧ sc ∈ uses_netloc ∧
          pa.take 2 ≠ ['/', '/'] from Or.inr ⟨hs, hu, h2⟩)]
    rw [if_neg (show ¬(('/' :: pa) ≠ [] ∧ ('/' :: pa).take 1 ≠ ['/']) from
          fun hx => hx.2 rfl)]
    rw [if_pos (show pa ≠ [] ∧ pa.take 1 ≠ ['/'] from ⟨hne, h1⟩)]
  · rw [if_neg hc]

theorem take2_append_cons {w r : Str} (h : (w ++ ';' :: r).take 2 = ['/', '/']) :
    w.take 2 = ['/', '/'] := by
  match w, h with
  | [], h =>
    exfalso
    have h2 : ';' :: r.take 1 = ['/', '/'] := h
    exact absurd (List.cons.inj h2).1 (by decide)
  | [a], h =>
    exfalso
    have h2 : [a, ';'] = ['/', '/'] := h
    exact absurd (List.cons.inj h2).2 (by decide)
  | a :: b :: t, h => exact h

/-- Stability transfers from a parse result to its params-recombined split
result. -/
theorem StableS_combineParams {p : ParseResult} (h : StableP p) :
    StableS (combineParams p) := by
  rcases h with h | h
  · exact Or.inl h
  · refine Or.inr ?_
    intro hx
    apply h
    simp only [combineParams] at hx
    by_cases hpr : p.params ≠ []
    · rw [if_pos hpr] at hx
      exact take2_append_cons hx
    · rw [if_neg hpr] at hx
      exact hx

/-- The params-side invariants survive the `/`-prepend. -/
theorem ParamsInv_cons_slash {pa : Str} (h2 : '/' ∈ pa → ';' ∉ afterLastChar '/' pa)
    (h3 : '/' ∉ pa → ';' ∉ pa) :
    ';' ∉ afterLastChar '/' ('/' :: pa) := by
  by_cases hp : '/' ∈ pa
  · have he : afterLastChar '/' ('/' :: pa) = afterLastChar '/' pa := by
      unfold afterLastChar
      rw [List.reverse_cons]
      have hmem : '/' ∈ pa.reverse := List.mem_reverse.mpr hp
      have hdec := List.takeWhile_append_dropWhile (fun x => x != '/') pa.reverse
      have hdrop := dropWhile_ne_eq_cons hmem
      have hnA : '/' ∉ pa.reverse.takeWhile (fun x => x != '/') := by
        intro hm
        have := List.mem_takeWhile_imp hm
        simp at this
      conv_lhs => rw [← hdec, hdrop]
      conv_rhs => rw [← hdec, hdrop]
      rw [List.append_assoc, List.cons_append]
      rw [takeWhile_ne_append hnA, takeWhile_ne_append hnA]
    rw [he]
    exact h2 hp
  · have he : afterLastChar '/' ('/' :: pa) = pa := by
      unfold afterLastChar
      rw [List.reverse_cons,
          takeWhile_ne_append (fun hm => hp (List.mem_reverse.mp hm)),
          List.reverse_reverse]
    rw [he]
    exact h3 hp

/-- Re-parsing an `urlunparse` serialization of an invariant-satisfying
parse result recovers it, up to the `/`-prepend recorded by `canonP`. -/
theorem urlparse_urlunparse {vb nf : Str → Bool} {p : ParseResult}
    (hinv : UrlInv vb nf (combineParams p)) (hpi : ParamsInv p)
    (hstab : StableP p) :
    urlparse vb nf [] (urlunparse p) = some (canonP p) := by
  have hser : urlunparse p = urlunsplit (combineParams p) := rfl
  have hsplit := urlsplit_urlunsplit hinv (StableS_combineParams hstab)
  have hfr : p.fragment = [] := hinv.frag_nil
  obtain ⟨sc, nl, pa, pr, qu, fr⟩ := p
  obtain ⟨hp1, hp2, hp3⟩ := hpi
  dsimp only at hp1 hp2 hp3 hfr
  subst hfr
  unfold urlparse
  rw [hser, hsplit]
  simp only [Option.map_some']
  simp only [canonS, canonP, combineParams]
  by_cases hpr : pr ≠ []
  · rw [if_pos hpr]
    by_cases hc : nl = [] ∧ sc ≠ [] ∧ sc ∈ uses_netloc ∧
        (pa ++ ';' :: pr).take 2 ≠ ['/', '/'] ∧ pa ++ ';' :: pr ≠ [] ∧
        (pa ++ ';' :: pr).take 1 ≠ ['/']
    · rw [if_pos hc]
      rw [if_pos hc]
      dsimp only
      have hcont : ';' ∈ '/' :: (pa ++ ';' :: pr) :=
        List.mem_cons.mpr (Or.inr (List.mem_append.mpr (Or.inr (List.mem_cons_self _ _))))
      rw [if_pos (contains_eq_true_iff.mpr hcont)]
      rw [← List.cons_append]
      rw [splitparams_roundtrip_pos hp1 (fun _ => ParamsInv_cons_slash hp2 hp3)
            (fun hx => absurd (List.mem_cons_self '/' pa) hx)]
    · rw [if_neg hc]
      rw [if_neg hc]
      dsimp only
      have hcont : ';' ∈ pa ++ ';' :: pr :=
        List.mem_append.mpr (Or.inr (List.mem_cons_self _ _))
      rw [if_pos (contains_eq_true_iff.mpr hcont)]
      rw [splitparams_roundtrip_pos hp1 hp2 hp3]
  · rw [if_neg hpr]
    rw [not_not] at hpr
    subst hpr
    by_cases hc : nl = [] ∧ sc ≠ [] ∧ sc ∈ uses_netloc ∧
        pa.take 2 ≠ ['/', '/'] ∧ pa ≠ [] ∧ pa.take 1 ≠ ['/']
    · rw [if_pos hc]
      rw [if_pos hc]
      dsimp only
      by_cases hsemi : ';' ∈ '/' :: pa
      · rw [if_pos (contains_eq_true_iff.mpr hsemi)]
        rw [splitparams_roundtrip_none hsemi (fun _ => ParamsInv_cons_slash hp2 hp3)
              (fun hx => absurd (List.mem_cons_self '/' pa) hx)]
      · rw [if_neg (fun hx => hsemi (contains_eq_true_iff.mp hx))]
    · rw [if_neg hc]
      rw [if_neg hc]
      dsimp only
      by_cases hsemi : ';' ∈ pa
      · rw [if_pos (contains_eq_true_iff.mpr hsemi)]
        rw [splitparams_roundtrip_none hsemi hp2 hp3]
      · rw [if_neg (fun hx => hsemi (contains_eq_true_iff.mp hx))]

/-! ## Lowering and `normalize_url` -/

theorem contains_eq_decide (l : Str) (a : Char) : l.contains a = decide (a ∈ l) := by
  by_cases h : a ∈ l
  · rw [decide_eq_true h]
    exact contains_eq_true_iff.mpr h
  · rw [decide_eq_false h]
    exact Bool.eq_false_iff.mpr (fun hx => h (contains_eq_true_iff.mp hx))

/-- The netloc validation is invariant under ASCII lowercasing, provided the
two external validators are. -/
theorem netlocChecksOk_lower {vb nf : Str → Bool}
    (hvb : ∀ n : Str, vb (n.map lowerChar) = vb n)
    (hnf : ∀ n : Str, nf (n.map lowerChar) = nf n) (nl : Str) :
    netlocChecksOk vb nf (nl.map lowerChar) = netlocChecksOk vb nf nl := by
  have hbr1 : (nl.map lowerChar).contains '[' = nl.contains '[' := by
    rw [contains_eq_decide, contains_eq_decide]
    exact decide_eq_decide.mpr (mem_map_lowerChar_iff_not_letter (by decide) (by decide) nl)
  have hbr2 : (nl.map lowerChar).contains ']' = nl.contains ']' := by
    rw [contains_eq_decide, contains_eq_decide]
    exact decide_eq_decide.mpr (mem_map_lowerChar_iff_not_letter (by decide) (by decide) nl)
  have hascii : (nl.map lowerChar).all isAsciiChar = nl.all isAsciiChar := by
    rw [List.all_map]
    have hfun : isAsciiChar ∘ lowerChar = isAsciiChar :=
      funext fun c => isAsciiChar_lowerChar c
    rw [hfun]
  unfold netlocChecksOk
  rw [hbr1, hbr2, hascii, hvb nl, hnf nl]

/-- The reparse invariants survive scheme/netloc lowercasing. -/
theorem UrlInv_lower {vb nf : Str → Bool} {s : SplitResult}
    (hvb : ∀ n : Str, vb (n.map lowerChar) = vb n)
    (hnf : ∀ n : Str, nf (n.map lowerChar) = nf n)
    (h : UrlInv vb nf s) : UrlInv vb nf (lowerSNs s) := by
  obtain ⟨sc, nl, pa, qu, fr⟩ := s
  obtain ⟨hso, hns, hps, hqs, hfr, hnu, hnp, hck, hld⟩ := h
  dsimp only at *
  subst hfr
  simp only [lowerSNs]
  refine ⟨?_, ?_, hps, hqs, rfl, ?_, ?_, ?_, ?_⟩
  · rcases hso with h0 | ⟨hne, hall, halpha, hlow⟩
    · left
      rw [h0]
      rfl
    · rw [hlow]
      exact Or.inr ⟨hne, hall, halpha, hlow⟩
  · intro c hc
    rw [List.mem_map] at hc
    obtain ⟨a, ha, rfl⟩ := hc
    rw [isNetlocEnd_lowerChar]
    exact hns a ha
  · intro c hc
    rcases List.mem_append.mp hc with hc1 | hc2
    · rcases List.mem_append.mp hc1 with hn | hpm
      · rw [List.mem_map] at hn
        obtain ⟨a, ha, rfl⟩ := hn
        rw [isUnsafeChar_lowerChar]
        exact hnu a (List.mem_append.mpr (Or.inl (List.mem_append.mpr (Or.inl ha))))
      · exact hnu c (List.mem_append.mpr (Or.inl (List.mem_append.mpr (Or.inr hpm))))
    · exact hnu c (List.mem_append.mpr (Or.inr hc2))
  · intro hne
    exact hnp (fun h0 => hne (by rw [h0]; rfl))
  · rw [netlocChecksOk_lower hvb hnf]
    exact hck
  · intro h1 h2 h3
    have hl := hld (List.map_eq_nil_iff.mp h1) (List.map_eq_nil_iff.mp h2) h3
    simp only [splitBody] at hl ⊢
    exact hl

theorem combineParams_lowerSN (q : ParseResult) :
    combineParams (lowerSN q) = lowerSNs (combineParams q) := rfl

theorem lowerSN_idem (q : ParseResult) : lowerSN (lowerSN q) = lowerSN q := by
  obtain ⟨sc, nl, pa, pr, qu, fr⟩ := q
  simp only [lowerSN]
  rw [map_lowerChar_idem, map_lowerChar_idem]

/-- No `#` occurs in the serialization of an invariant-satisfying split
result. -/
theorem no_hash_unsplit {vb nf : Str → Bool} {s : SplitResult} (h : UrlInv vb nf s) :
    '#' ∉ urlunsplit s := by
  obtain ⟨sc, nl, pa, qu, fr⟩ := s
  obtain ⟨hso, hns, hps, hqs, hfr, hnu, hnp, hck, hld⟩ := h
  dsimp only at *
  subst hfr
  intro hc
  rw [urlunsplit_eq] at hc
  have hpa : '#' ∉ pa := fun hm => (hps _ hm).2 rfl
  have hnl : '#' ∉ nl := fun hm => hns _ hm (by decide)
  have hW : '#' ∉ (if nl ≠ [] ∨ (sc ≠ [] ∧ sc ∈ uses_netloc ∧ pa.take 2 ≠ ['/', '/']) then
      '/' :: '/' :: nl ++ (if pa ≠ [] ∧ pa.take 1 ≠ ['/'] then '/' :: pa else pa)
      else pa) := by
    intro hw
    split at hw
    · rcases List.mem_cons.mp hw with h1 | hw1
      · exact absurd h1 (by decide)
      rcases List.mem_cons.mp hw1 with h1 | hw2
      · exact absurd h1 (by decide)
      rcases List.mem_append.mp hw2 with h1 | hw3
      · exact hnl h1
      · split at hw3
        · rcases List.mem_cons.mp hw3 with h1 | h1
          · exact absurd h1 (by decide)
          · exact hpa h1
        · exact hpa hw3
    · exact hpa hw
  rcases List.mem_append.mp hc with hc1 | hc2
  · by_cases hsc : sc ≠ []
    · rw [if_pos hsc] at hc1
      rcases List.mem_append.mp hc1 with h1 | h1
      · rcases hso with h0 | ⟨-, hall, -, -⟩
        · rw [h0] at h1
          simp at h1
        · have := List.all_eq_true.mp hall '#' h1
          exact absurd this (by decide)
      · rcases List.mem_cons.mp h1 with h1 | h1
        · exact absurd h1 (by decide)
        · exact hW h1
    · rw [if_neg hsc] at hc1
      exact hW hc1
  · by_cases hq : qu = []
    · rw [if_pos hq] at hc2
      simp at hc2
    · rw [if_neg hq] at hc2
      rcases List.mem_cons.mp hc2 with h1 | h1
      · exact absurd h1 (by decide)
      · exact hqs _ h1 rfl

/-- Serialization absorbs `canonP` even after scheme/netloc lowering
(the parsed scheme is already lowercase). -/
theorem urlunparse_lowerSN_canonP {vb nf : Str → Bool} {q : ParseResult}
    (hinv : UrlInv vb nf (combineParams q)) :
    urlunparse (lowerSN (canonP q)) = urlunparse (lowerSN q) := by
  have hsc : q.scheme.map lowerChar = q.scheme := by
    rcases hinv.scheme_ok with h0 | ⟨-, -, -, h4⟩
    · have h0' : q.scheme = [] := h0
      rw [h0']
      rfl
    · exact h4
  unfold canonP
  by_cases hc : q.netloc = [] ∧ q.scheme ≠ [] ∧ q.scheme ∈ uses_netloc ∧
      (combineParams q).path.take 2 ≠ ['/', '/'] ∧ (combineParams q).path ≠ [] ∧
      (combineParams q).path.take 1 ≠ ['/']
  · rw [if_pos hc]
    obtain ⟨hn, hs, hu, h2, hne, h1⟩ := hc
    obtain ⟨sc, nl, pa, pr, qu, fr⟩ := q
    dsimp only at hsc hn hs hu
    simp only [combineParams] at h2 hne h1
    subst hn
    simp only [lowerSN]
    rw [hsc, List.map_nil]
    have key := urlunsplit_canonS ⟨sc, [], if pr ≠ [] then pa ++ ';' :: pr else pa, qu, fr⟩
    simp only [canonS] at key
    rw [if_pos (show True ∧ sc ≠ [] ∧ sc ∈ uses_netloc ∧
          (if pr ≠ [] then pa ++ ';' :: pr else pa).take 2 ≠ ['/', '/'] ∧
          (if pr ≠ [] then pa ++ ';' :: pr else pa) ≠ [] ∧
          (if pr ≠ [] then pa ++ ';' :: pr else pa).take 1 ≠ ['/'] from
          ⟨trivial, hs, hu, h2, hne, h1⟩)] at key
    show urlunsplit ⟨sc, [], if pr ≠ [] then ('/' :: pa) ++ ';' :: pr else '/' :: pa, qu, fr⟩ =
      urlunsplit ⟨sc, [], if pr ≠ [] then pa ++ ';' :: pr else pa, qu, fr⟩
    by_cases hpr : pr ≠ []
    · rw [if_pos hpr]
      rw [if_pos hpr] at key ⊢
      rw [List.cons_append]
      exact key
    · rw [if_neg hpr]
      rw [if_neg hpr] at key ⊢
      exact key
  · rw [if_neg hc]

/-- Characterization of `normalize_url` on parsable stable URLs: it is
exactly "parse, drop the fragment, lowercase scheme and netloc,
re-serialize". -/
theorem normalize_url_eq {vb nf : Str → Bool} {u : Str} {p : ParseResult}
    (hp : urlparse vb nf [] u = some p) (hstab : StableP p) :
    normalize_url vb nf u = some (urlunparse (lowerSN (dropFrag p))) := by
  by_cases hu : u = []
  · subst hu
    have h0 : urlparse vb nf [] ([] : Str) = some ⟨[], [], [], [], [], []⟩ := rfl
    rw [h0] at hp
    have hpe := Option.some.inj hp
    subst hpe
    rfl
  · unfold normalize_url
    rw [if_neg hu]
    unfold remove_fragment
    rw [if_neg hu]
    unfold urldefrag
    by_cases hh : '#' ∈ u
    · rw [if_pos (contains_eq_true_iff.mpr hh)]
      rw [hp]
      simp only [Option.map_some', Option.bind_eq_bind, Option.some_bind]
      obtain ⟨hinv, hpi⟩ := urlparse_establishes hp
      have hd : (⟨p.scheme, p.netloc, p.path, p.params, p.query, []⟩ : ParseResult) =
          dropFrag p := rfl
      rw [hd]
      rw [urlparse_urlunparse hinv (show ParamsInv (dropFrag p) from hpi)
            (show StableP (dropFrag p) from hstab)]
      simp only [Option.some_bind]
      have hl : (⟨(canonP (dropFrag p)).scheme.map lowerChar,
          (canonP (dropFrag p)).netloc.map lowerChar, (canonP (dropFrag p)).path,
          (canonP (dropFrag p)).params, (canonP (dropFrag p)).query,
          (canonP (dropFrag p)).fragment⟩ : ParseResult) =
          lowerSN (canonP (dropFrag p)) := rfl
      rw [hl, urlunparse_lowerSN_canonP hinv]
      rfl
    · rw [if_neg (fun hx => hh (contains_eq_true_iff.mp hx))]
      simp only [Option.bind_eq_bind, Option.some_bind]
      rw [hp]
      simp only [Option.some_bind]
      have hfr : p.fragment = [] := urlparse_frag_nil hh hp
      have hd : dropFrag p = p := by
        obtain ⟨sc, nl, pa, pr, qu, fr⟩ := p
        dsimp only at hfr
        subst hfr
        rfl
      rw [hd]
      rfl

/-- `normalize_url` is idempotent on parsable stable inputs, when the two
external validators are invariant under lowercasing. -/
theorem normalize_url_idem {vb nf : Str → Bool}
    (hvb : ∀ n : Str, vb (n.map lowerChar) = vb n)
    (hnf : ∀ n : Str, nf (n.map lowerChar) = nf n)
    {u v : Str} {p : ParseResult}
    (hp : urlparse vb nf [] u = some p) (hstab : StableP p)
    (hv : normalize_url vb nf u = some v) :
    normalize_url vb nf v = some v := by
  rw [normalize_url_eq hp hstab] at hv
  have hveq := Option.some.inj hv
  obtain ⟨hinv, hpi⟩ := urlparse_establishes hp
  set r := lowerSN (dropFrag p) with hr
  subst hveq
  have hinv' : UrlInv vb nf (combineParams r) := by
    rw [hr, combineParams_lowerSN]
    exact UrlInv_lower hvb hnf hinv
  have hpi' : ParamsInv r := hpi
  have hstab' : StableP r := by
    rcases hstab with h | h
    · left
      rw [hr]
      intro hx
      exact h (List.map_eq_nil_iff.mp hx)
    · right
      rw [hr]
      exact h
  have hnh : '#' ∉ urlunparse r := no_hash_unsplit hinv'
  by_cases hv0 : urlunparse r = []
  · rw [hv0]
    rfl
  · unfold normalize_url
    rw [if_neg hv0]
    unfold remove_fragment
    rw [if_neg hv0]
    unfold urldefrag
    rw [if_neg (fun hx => hnh (contains_eq_true_iff.mp hx))]
    simp only [Option.bind_eq_bind, Option.some_bind]
    rw [urlparse_urlunparse hinv' hpi' hstab']
    simp only [Option.some_bind]
    have hl : (⟨(canonP r).scheme.map lowerChar, (canonP r).netloc.map lowerChar,
        (canonP r).path, (canonP r).params, (canonP r).query,
        (canonP r).fragment⟩ : ParseResult) = lowerSN (canonP r) := rfl
    rw [hl, urlunparse_lowerSN_canonP hinv', hr, lowerSN_idem]
    rfl

/-! ## Persistence lemmas -/

/-- `upsert_course` preserves any row property that the incoming row has. -/
theorem upsert_course_pred {P : CourseRow → Prop} {db : CoursesTable} {row : CourseRow}
    (hdb : ∀ q ∈ db, P q.2) (hrow : P row) :
    ∀ q ∈ upsert_course db row, P q.2 := by
  intro q hq
  unfold upsert_course at hq
  by_cases hany : db.any (fun r => r.2.url == row.url)
  · rw [if_pos hany] at hq
    rw [List.mem_map] at hq
    obtain ⟨r0, hr0, rfl⟩ := hq
    by_cases he : r0.2.url = row.url
    · rw [if_pos he]
      exact hrow
    · rw [if_neg he]
      exact hdb r0 hr0
  · rw [if_neg hany] at hq
    rcases List.mem_append.mp hq with h1 | h1
    · exact hdb q h1
    · have hx : q = (db.foldl (fun m r => max m r.1) 0 + 1, row) := by simpa using h1
      rw [hx]
      exact hrow

/-- The detail phase only ever stores rows with nonempty titles. -/
theorem crawl_detail_phase_titles {fetch : Str → Option CourseRow} {links : List Str}
    {db : CoursesTable} (hdb : ∀ q ∈ db, q.2.title ≠ []) :
    ∀ q ∈ crawl_detail_phase fetch links db, q.2.title ≠ [] := by
  induction links generalizing db with
  | nil => exact hdb
  | cons l ls ih =>
    unfold crawl_detail_phase at ih ⊢
    rw [List.foldl_cons]
    apply ih
    unfold crawl_detail_step
    cases hf : fetch l with
    | none => exact hdb
    | some data =>
      dsimp only
      by_cases ht : data.title = []
      · rw [if_pos ht]
        exact hdb
      · rw [if_neg ht]
        exact upsert_course_pred (P := fun r => r.title ≠ []) hdb ht

/-- `upsert_course` keeps the urls of a table pairwise distinct. -/
theorem upsert_course_pairwise {db : CoursesTable} {row : CourseRow}
    (h : db.Pairwise (fun a b => a.2.url ≠ b.2.url)) :
    (upsert_course db row).Pairwise (fun a b => a.2.url ≠ b.2.url) := by
  unfold upsert_course
  by_cases hany : db.any (fun r => r.2.url == row.url)
  · rw [if_pos hany]
    refine List.Pairwise.map _ ?_ h
    intro a b hab
    by_cases ha : a.2.url = row.url <;> by_cases hb : b.2.url = row.url
    · exact absurd (ha.trans hb.symm) hab
    · rw [if_pos ha, if_neg hb]
      exact fun he => hab (ha.trans he)
    · rw [if_neg ha, if_pos hb]
      exact ha
    · rw [if_neg ha, if_neg hb]
      exact hab
  · rw [if_neg hany]
    rw [List.pairwise_append]
    refine ⟨h, List.pairwise_singleton _ _, ?_⟩
    intro a ha b hb
    have hb' : b = (db.foldl (fun m r => max m r.1) 0 + 1, row) := by simpa using hb
    rw [hb']
    intro he
    exact hany (List.any_eq_true.mpr ⟨a, ha, by rw [beq_iff_eq]; exact he⟩)

/-- In a url-distinct table holding a row with url `u`, the filter by `u`
picks exactly that row. -/
theorem filter_url_singleton {db : CoursesTable} {u : Str}
    (h : db.Pairwise (fun a b => a.2.url ≠ b.2.url))
    (hany : db.any (fun r => r.2.url == u)) :
    ∃ q, db.filter (fun r => r.2.url == u) = [q] ∧ q.2.url = u := by
  induction db with
  | nil => simp at hany
  | cons a t ih =>
    rw [List.pairwise_cons] at h
    by_cases ha : a.2.url = u
    · refine ⟨a, ?_, ha⟩
      rw [List.filter_cons_of_pos (by rw [beq_iff_eq]; exact ha)]
      have hnil : t.filter (fun r => r.2.url == u) = [] := by
        apply List.filter_eq_nil.mpr
        intro q hq
        rw [beq_iff_eq]
        intro he
        exact h.1 q hq (ha.trans he.symm)
      rw [hnil]
    · rw [List.filter_cons_of_neg (by rw [beq_iff_eq]; exact ha)]
      apply ih h.2
      rcases List.any_eq_true.mp hany with ⟨x, hx, hxu⟩
      rcases List.mem_cons.mp hx with rfl | hx2
      · exact absurd (by rw [beq_iff_eq] at hxu; exact hxu) ha
      · exact List.any_eq_true.mpr ⟨x, hx2, hxu⟩

/-- After an upsert into a url-distinct table, the rows carrying the
upserted url are exactly the upserted row. -/
theorem upsert_course_filter {db : CoursesTable} {row : CourseRow}
    (h : db.Pairwise (fun a b => a.2.url ≠ b.2.url)) :
    ((upsert_course db row).filter (fun q => q.2.url == row.url)).map
      (fun q => q.2) = [row] := by
  unfold upsert_course
  by_cases hany : db.any (fun r => r.2.url == row.url)
  · rw [if_pos hany]
    rw [List.filter_map]
    have hcong : db.filter ((fun q : Nat × CourseRow => q.2.url == row.url) ∘
        (fun r => if r.2.url = row.url then (r.1, row) else r)) =
        db.filter (fun r => r.2.url == row.url) := by
      apply List.filter_congr
      intro r _
      simp only [Function.comp]
      by_cases hr : r.2.url = row.url
      · rw [if_pos hr]
        rw [hr]
      · rw [if_neg hr]
    rw [hcong]
    obtain ⟨q, hq, hqu⟩ := filter_url_singleton h hany
    rw [hq]
    simp only [List.map_cons, List.map_nil]
    rw [if_pos hqu]
  · rw [if_neg hany]
    rw [List.filter_append]
    have hnil : db.filter (fun q => q.2.url == row.url) = [] := by
      apply List.filter_eq_nil.mpr
      intro q hq hbeq
      exact hany (List.any_eq_true.mpr ⟨q, hq, hbeq⟩)
    rw [hnil]
    rw [List.filter_cons_of_pos (by rw [beq_iff_eq])]
    rfl

/-! ## Walker lemmas -/

theorem collect_fold_none {vb nf : Str → Bool} {base : Str} (cards : List Card) :
    cards.foldl (fun acc card => acc.bind fun s => collect_step vb nf base s card)
      none = none := by
  induction cards with
  | nil => rfl
  | cons c t ih => exact ih

/-- One scan step only ever grows the link set. -/
theorem collect_step_mono {vb nf : Str → Bool} {base : Str} {s l : Finset Str}
    {card : Card} (h : collect_step vb nf base s card = some l) : s ⊆ l := by
  unfold collect_step at h
  by_cases hc : (is_course_card card : Prop)
  · rw [if_pos hc] at h
    cases hx : extract_course_link_from_card vb nf card base with
    | none =>
      rw [hx] at h
      simp at h
    | some lnk =>
      rw [hx] at h
      simp only [Option.map_some'] at h
      have hl := Option.some.inj h
      rw [← hl]
      cases lnk with
      | none => exact Finset.Subset.refl s
      | some u =>
        dsimp only
        by_cases hu : u = []
        · rw [if_pos hu]
        · rw [if_neg hu]
          exact Finset.subset_insert u s
  · rw [if_neg hc] at h
    rw [← Option.some.inj h]

/-- A whole-page scan only ever grows the link set. -/
theorem collect_course_links_mono {vb nf : Str → Bool} {base : Str} :
    ∀ (cards : List Card) (links l : Finset Str),
      collect_course_links vb nf base cards links = some l → links ⊆ l := by
  intro cards
  induction cards with
  | nil =>
    intro links l h
    have h2 : some links = some l := h
    rw [← Option.some.inj h2]
  | cons c t ih =>
    intro links l h
    unfold collect_course_links at h
    rw [List.foldl_cons] at h
    cases hx : collect_step vb nf base links c with
    | none =>
      exfalso
      rw [show (some links).bind (fun s => collect_step vb nf base s c) = none from by
            rw [Option.some_bind, hx]] at h
      rw [collect_fold_none] at h
      exact Option.noConfusion h
    | some s2 =>
      have h2 : collect_course_links vb nf base t s2 = some l := by
        unfold collect_course_links
        rw [← h]
        congr 1
        rw [Option.some_bind, hx]
      exact (collect_step_mono hx).trans (ih s2 l h2)

theorem iterate_step_eq (vb nf : Str → Bool) (br : Browser) (base : Str) (i : Nat)
    (st : Finset Str × Str) :
    iterate_step vb nf br base i st =
      (collect_course_links vb nf base (br.render i) st.1).map fun l =>
        (l, if br.clickOk i then first_card_title (br.render i) else st.2) := rfl

theorem iterate_fold_none {vb nf : Str → Bool} {br : Browser} {base : Str}
    (idxs : List Nat) :
    idxs.foldl (fun st i => st.bind (iterate_step vb nf br base i)) none = none := by
  induction idxs with
  | nil => rfl
  | cons i t ih => exact ih

/-- The collected link set never depends on the click-and-wait outcomes: two
runs over the same renders agree on the links even when every click of one
of them fails. -/
theorem iterate_fold_fst {vb nf : Str → Bool} {br br2 : Browser} {base : Str}
    (hrender : br2.render = br.render) :
    ∀ (idxs : List Nat) (st1 st2 : Finset Str × Str), st1.1 = st2.1 →
      Option.map (fun st : Finset Str × Str => st.1)
          (idxs.foldl (fun st i => st.bind (iterate_step vb nf br2 base i)) (some st1)) =
      Option.map (fun st : Finset Str × Str => st.1)
          (idxs.foldl (fun st i => st.bind (iterate_step vb nf br base i)) (some st2)) := by
  intro idxs
  induction idxs with
  | nil =>
    intro st1 st2 h
    simp only [List.foldl_nil, Option.map_some']
    rw [h]
  | cons i t ih =>
    intro st1 st2 h
    rw [List.foldl_cons, List.foldl_cons]
    simp only [Option.some_bind]
    rw [iterate_step_eq, iterate_step_eq, hrender, h]
    cases hx : collect_course_links vb nf base (br.render i) st2.1 with
    | none =>
      simp only [Option.map_none']
      rw [iterate_fold_none, iterate_fold_none]
    | some l =>
      simp only [Option.map_some']
      exact ih (l, if br2.clickOk i then first_card_title (br.render i) else st1.2)
        (l, if br.clickOk i then first_card_title (br.render i) else st2.2) rfl

/-! ## Query-building lemmas -/

theorem mem_dedup_fold {x : Str} : ∀ (l acc : List Str),
    x ∈ l.foldl (fun acc y => if y ∈ acc then acc else acc ++ [y]) acc ↔
      x ∈ acc ∨ x ∈ l := by
  intro l
  induction l with
  | nil =>
    intro acc
    simp
  | cons y t ih =>
    intro acc
    rw [List.foldl_cons]
    by_cases hy : y ∈ acc
    · rw [if_pos hy, ih acc]
      constructor
      · rintro (h | h)
        · exact Or.inl h
        · exact Or.inr (List.mem_cons.mpr (Or.inr h))
      · rintro (h | h)
        · exact Or.inl h
        · rcases List.mem_cons.mp h with rfl | h
          · exact Or.inl hy
          · exact Or.inr h
    · rw [if_neg hy, ih (acc ++ [y])]
      constructor
      · rintro (h | h)
        · rcases List.mem_append.mp h with h | h
          · exact Or.inl h
          · have hxy : x = y := by simpa using h
            exact Or.inr (List.mem_cons.mpr (Or.inl hxy))
        · exact Or.inr (List.mem_cons.mpr (Or.inr h))
      · rintro (h | h)
        · exact Or.inl (List.mem_append.mpr (Or.inl h))
        · rcases List.mem_cons.mp h with rfl | h
          · exact Or.inl (List.mem_append.mpr (Or.inr (by simp)))
          · exact Or.inr h

/-- First-occurrence deduplication keeps exactly the original members. -/
theorem mem_dedupKeepFirst {x : Str} {l : List Str} :
    x ∈ dedupKeepFirst l ↔ x ∈ l := by
  unfold dedupKeepFirst
  rw [mem_dedup_fold]
  simp

theorem intercalate_cons_eq (sep x : Str) (xs : List Str) :
    List.intercalate sep (x :: xs) =
      x ++ (if xs = [] then [] else sep ++ List.intercalate sep xs) := by
  cases xs with
  | nil =>
    rw [if_pos rfl, List.append_nil]
    simp [List.intercalate]
  | cons b t =>
    rw [if_neg (by simp)]
    rw [show List.intercalate sep (x :: b :: t) =
          x ++ sep ++ List.intercalate sep (b :: t) from by
        simp [List.intercalate, List.intersperse]]
    rw [List.append_assoc]

/-- Every OR-group `build_fts_query` emits opens with a parenthesis. -/
theorem build_group_shape (con : SynDB) (ts : List Str) :
    ∀ g ∈ ts.filterMap (fun t0 =>
      if pyStrip t0 = [] then none
      else some ('(' :: List.intercalate " OR ".data
        ((dedupKeepFirst ((pyStrip t0).map lowerChar ::
          (get_synonyms con (pyStrip t0)).map (fun s => s.map lowerChar))).map
            quotePart) ++ [')'])),
      ∃ w, g = '(' :: w := by
  intro g hg
  rcases List.mem_filterMap.mp hg with ⟨t0, -, hf⟩
  by_cases h0 : pyStrip t0 = []
  · rw [if_pos h0] at hf
    exact Option.noConfusion hf
  · rw [if_neg h0] at hf
    exact ⟨_, (Option.some.inj hf).symm⟩

/-- The built expression is empty exactly when no term contributed a
group. -/
theorem build_eq_nil_iff_groups (con : SynDB) (ts : List Str) :
    build_fts_query ts con = [] ↔
      ts.filterMap (fun t0 =>
        if pyStrip t0 = [] then none
        else some ('(' :: List.intercalate " OR ".data
          ((dedupKeepFirst ((pyStrip t0).map lowerChar ::
            (get_synonyms con (pyStrip t0)).map (fun s => s.map lowerChar))).map
              quotePart) ++ [')'])) = [] := by
  constructor
  · intro h
    cases hgs : ts.filterMap (fun t0 =>
        if pyStrip t0 = [] then none
        else some ('(' :: List.intercalate " OR ".data
          ((dedupKeepFirst ((pyStrip t0).map lowerChar ::
            (get_synonyms con (pyStrip t0)).map (fun s => s.map lowerChar))).map
              quotePart) ++ [')'])) with
    | nil => rfl
    | cons g rest =>
      exfalso
      obtain ⟨w, hw⟩ := build_group_shape con ts g
        (by rw [hgs]; exact List.mem_cons_self g rest)
      unfold build_fts_query at h
      rw [hgs, intercalate_cons_eq, hw] at h
      simp at h
  · intro h
    unfold build_fts_query
    rw [h]
    rfl

/-! ## Claim theorems -/

/-- C1 (amended): for an absolute http/https URL free of `@` and of a
`mailto:` prefix, whose lowercased netloc equals the lowercased domain or is
a subdomain of it, and whose path (defaulted to `/`) ends in `/`, has no
extension, or has extension `.html`, `is_url_ok_to_follow` returns
`some true`. -/
theorem is_url_ok_to_follow_accepts {vb nf : Str → Bool} {url domain : Str}
    {p : ParseResult}
    (habs : is_absolute_url vb nf url = some true)
    (hat : '@' ∉ url)
    (hmail : (url.map lowerChar).take 7 ≠ "mailto:".data)
    (hp : urlparse vb nf [] url = some p)
    (hdom : p.netloc.map lowerChar = domain.map lowerChar ∨
      ('.' :: domain.map lowerChar).isSuffixOf (p.netloc.map lowerChar))
    (hpath : ['/'].isSuffixOf (if p.path = [] then "/".data else p.path) ∨
      filename_extension (if p.path = [] then "/".data else p.path) = [] ∨
      filename_extension (if p.path = [] then "/".data else p.path) = ".html".data) :
    is_url_ok_to_follow vb nf url domain = some true := by
  unfold is_url_ok_to_follow
  rw [habs]
  simp only [Option.bind_eq_bind, Option.some_bind, Option.pure_def]
  rw [if_neg (show ¬((!true) = true) by decide)]
  have hc1 : ¬((url.contains '@' ||
      decide ((url.map lowerChar).take 7 = "mailto:".data)) = true) := by
    simp only [Bool.or_eq_true, decide_eq_true_eq]
    rintro (h | h)
    · exact hat (contains_eq_true_iff.mp h)
    · exact hmail h
  rw [if_neg hc1, hp]
  simp only [Option.some_bind]
  rw [if_neg (show ¬((!decide (p.netloc.map lowerChar = domain.map lowerChar ∨
        ('.' :: domain.map lowerChar).isSuffixOf (p.netloc.map lowerChar) = true)) = true) from by
      rw [decide_eq_true hdom]
      decide)]
  rcases hpath with h | h | h
  · rw [if_pos h]
  · by_cases h0 : (['/'].isSuffixOf (if p.path = [] then "/".data else p.path) : Prop)
    · rw [if_pos h0]
    · rw [if_neg h0, if_pos h]
  · by_cases h0 : (['/'].isSuffixOf (if p.path = [] then "/".data else p.path) : Prop)
    · rw [if_pos h0]
    · by_cases h1 : filename_extension (if p.path = [] then "/".data else p.path) = []
      · rw [if_neg h0, if_pos h1]
      · rw [if_neg h0, if_neg h1, if_pos h]

/-- C1 witness: a subdomain URL with an extensionless path is accepted. -/
theorem is_url_ok_to_follow_accepts_witness :
    is_url_ok_to_follow (fun _ => true) (fun _ => true) "http://sub.example.com/x".data
      "Example.com".data = some true :=
  @is_url_ok_to_follow_accepts (fun _ => true) (fun _ => true)
    "http://sub.example.com/x".data "Example.com".data
    ⟨"http".data, "sub.example.com".data, "/x".data, [], [], []⟩
    (by decide) (by decide) (by decide) (by decide) (Or.inr (by decide))
    (Or.inr (Or.inl (by decide)))

/-- C1 counterexample: a URL whose host matches the domain exactly and whose
path ends in `/` is still rejected, because its query holds an `@`. -/
theorem is_url_ok_to_follow_accepts_cx :
    is_url_ok_to_follow (fun _ => true) (fun _ => true) "http://example.com/?a@b".data
      "example.com".data = some false ∧
    (urlparse (fun _ => true) (fun _ => true) [] "http://example.com/?a@b".data).map
      (fun q => (q.netloc, q.path)) = some ("example.com".data, "/".data) := by decide

/-- C2 (amended): whenever `is_url_ok_to_follow` returns at all (no
`ValueError` escapes URL parsing), it returns `some false` for every
`@`-containing or `mailto:`-prefixed URL, and for every URL missing an
http/https scheme or missing a host. -/
theorem is_url_ok_to_follow_rejects {vb nf : Str → Bool} {url domain : Str} {r : Bool}
    (h : is_url_ok_to_follow vb nf url domain = some r) :
    (('@' ∈ url ∨ (url.map lowerChar).take 7 = "mailto:".data) → r = false) ∧
    (∀ p, urlparse vb nf [] url = some p →
      ((p.scheme ≠ "http".data ∧ p.scheme ≠ "https".data) ∨ p.netloc = []) → r = false) := by
  unfold is_url_ok_to_follow at h
  rcases habs : is_absolute_url vb nf url with _ | b
  · rw [habs] at h
    simp at h
  · rw [habs] at h
    simp only [Option.bind_eq_bind, Option.some_bind, Option.pure_def] at h
    cases b with
    | false =>
      rw [if_pos (by decide : (!false) = true)] at h
      have hr : r = false := (Option.some.inj h).symm
      exact ⟨fun _ => hr, fun _ _ _ => hr⟩
    | true =>
      have habs2 : ∀ q, urlparse vb nf [] url = some q →
          ((q.scheme = "http".data ∨ q.scheme = "https".data) ∧ q.netloc ≠ []) := by
        intro q hq
        unfold is_absolute_url at habs
        by_cases hu : url = []
        · rw [if_pos hu] at habs
          simp at habs
        · rw [if_neg hu, hq] at habs
          simp only [Option.map_some'] at habs
          have hd := Option.some.inj habs
          exact of_decide_eq_true hd
      constructor
      · intro hm
        rw [if_neg (by decide : ¬((!true) = true))] at h
        have hc : (url.contains '@' ||
            decide ((url.map lowerChar).take 7 = "mailto:".data)) = true := by
          simp only [Bool.or_eq_true, decide_eq_true_eq]
          rcases hm with hm | hm
          · exact Or.inl (contains_eq_true_iff.mpr hm)
          · exact Or.inr hm
        rw [if_pos hc] at h
        exact (Option.some.inj h).symm
      · intro q hq hbad
        exfalso
        have hgood := habs2 q hq
        rcases hbad with hbad | hbad
        · rcases hgood.1 with hh | hh
          · exact hbad.1 hh
          · exact hbad.2 hh
        · exact hgood.2 hbad

/-- C2 witness: a `mailto:` URL (which also contains `@`) is rejected. -/
theorem is_url_ok_to_follow_rejects_witness :
    is_url_ok_to_follow (fun _ => true) (fun _ => true) "mailto:a@b".data "b".data =
      some false ∧ false = false :=
  ⟨by decide, (@is_url_ok_to_follow_rejects (fun _ => true) (fun _ => true)
      "mailto:a@b".data "b".data false (by decide)).1 (Or.inl (by decide))⟩

/-- C2 counterexample: an `@`-containing URL on which `is_url_ok_to_follow`
does not return `False` — the unbalanced bracket in its host makes `urlparse`
raise `ValueError` (modelled by `none`), which propagates. -/
theorem is_url_ok_to_follow_rejects_cx :
    is_url_ok_to_follow (fun _ => true) (fun _ => true) "http://a@[b/".data "b".data =
      none ∧ '@' ∈ "http://a@[b/".data := by decide

/-- C3 (amended): on URLs that parse with a nonempty netloc or with a path
not starting `//` (`StableP`), and with lowering-invariant external
validators, `normalize_url` is idempotent, and its output is exactly the
parse with fragment dropped and scheme/netloc lowercased, re-serialized —
path, params and query are carried over verbatim from the parse. -/
theorem normalize_url_idempotent_stable {vb nf : Str → Bool}
    (hvb : ∀ n : Str, vb (n.map lowerChar) = vb n)
    (hnf : ∀ n : Str, nf (n.map lowerChar) = nf n)
    {u v : Str} {p : ParseResult}
    (hp : urlparse vb nf [] u = some p) (hstab : StableP p)
    (hv : normalize_url vb nf u = some v) :
    normalize_url vb nf v = some v ∧ v = urlunparse (lowerSN (dropFrag p)) := by
  refine ⟨normalize_url_idem hvb hnf hp hstab hv, ?_⟩
  rw [normalize_url_eq hp hstab] at hv
  exact (Option.some.inj hv).symm

/-- C3 witness: a URL with uppercase scheme and host, a query and a fragment
normalizes to its lowercased defragmented form, on which `normalize_url` is
a fixpoint. -/
theorem normalize_url_idempotent_stable_witness :
    normalize_url (fun _ => true) (fun _ => true) "http://ex.com/p?q".data =
      some "http://ex.com/p?q".data ∧
    "http://ex.com/p?q".data = urlunparse (lowerSN (dropFrag
      ⟨"http".data, "Ex.com".data, "/p".data, [], "q".data, "f".data⟩)) :=
  @normalize_url_idempotent_stable (fun _ => true) (fun _ => true)
    (fun _ => rfl) (fun _ => rfl) "HTTP://Ex.com/p?q#f".data "http://ex.com/p?q".data
    ⟨"http".data, "Ex.com".data, "/p".data, [], "q".data, "f".data⟩
    (by decide) (Or.inl (by decide)) (by decide)

/-- C3 counterexample: `normalize_url` is not idempotent — empty-netloc URLs
with a `//`-headed path migrate path characters into the netloc on the
second pass, which is then lowercased. -/
theorem normalize_url_not_idempotent :
    normalize_url (fun _ => true) (fun _ => true) "////Foo".data = some "//Foo".data ∧
    normalize_url (fun _ => true) (fun _ => true) "//Foo".data = some "//foo".data ∧
    "//foo".data ≠ "//Foo".data := by decide

/-- C4: `compare_texts` always lands in `[0, 1]`, and returns exactly `0`
when either stripped input is empty (in particular when both are) and when
the TF-IDF vectorization fails. -/
theorem compare_texts_bounds_and_zeros (fit : Str → Str → Option ℚ) (a b : Str) :
    0 ≤ compare_texts fit a b ∧ compare_texts fit a b ≤ 1 ∧
    (pyStrip a = [] ∨ pyStrip b = [] → compare_texts fit a b = 0) ∧
    (fit (pyStrip a) (pyStrip b) = none → compare_texts fit a b = 0) := by
  unfold compare_texts tfidf_cosine
  by_cases h1 : pyStrip a = [] ∧ pyStrip b = []
  · rw [if_pos h1]
    exact ⟨le_refl 0, zero_le_one, fun _ => rfl, fun _ => rfl⟩
  · rw [if_neg h1]
    by_cases h2 : pyStrip a = [] ∨ pyStrip b = []
    · rw [if_pos h2]
      exact ⟨le_refl 0, zero_le_one, fun _ => rfl, fun _ => rfl⟩
    · rw [if_neg h2]
      cases hf : fit (pyStrip a) (pyStrip b) with
      | none =>
        exact ⟨le_refl 0, zero_le_one, fun hx => absurd hx h2, fun _ => rfl⟩
      | some sim =>
        dsimp only
        have hq : (0 : ℚ) ≤ (if sim < 0 then 0 else sim) := by
          by_cases hs : sim < 0
          · rw [if_pos hs]
          · rw [if_neg hs]
            exact le_of_not_lt hs
        refine ⟨?_, ?_, fun hx => absurd hx h2, fun hx => Option.noConfusion hx⟩
        · by_cases hb : (if sim < 0 then 0 else sim) > 1
          · rw [if_pos hb]
            exact zero_le_one
          · rw [if_neg hb]
            exact hq
        · by_cases hb : (if sim < 0 then 0 else sim) > 1
          · rw [if_pos hb]
          · rw [if_neg hb]
            exact le_of_not_lt hb

/-- C5: `build_fts_query` builds, for each non-blank interest term, one
parenthesized group whose parts are exactly the lowercased term and each of
its lowercased synonyms and nothing else, each part wrapped in double quotes
exactly when it contains a space, the parts joined with ` OR ` inside the
parentheses and the groups joined with ` OR `; a blank term contributes no
group, an all-blank term list yields the empty expression, and the spec's
example — term `ia` with synonym `inteligencia artificial` — builds exactly
`(ia OR "inteligencia artificial")`. -/
theorem build_fts_query_groups :
    (∀ (con : SynDB) (t0 : Str) (terms : List Str), pyStrip t0 = [] →
      build_fts_query (t0 :: terms) con = build_fts_query terms con) ∧
    (∀ (con : SynDB) (t0 : Str) (terms : List Str), pyStrip t0 ≠ [] →
      ∃ parts : List Str,
        build_fts_query (t0 :: terms) con =
          ('(' :: List.intercalate " OR ".data
              (parts.map fun q => if q.contains ' ' then '"' :: q ++ ['"'] else q) ++
            [')']) ++
          (if build_fts_query terms con = [] then []
           else " OR ".data ++ build_fts_query terms con) ∧
        (pyStrip t0).map lowerChar ∈ parts ∧
        (∀ s ∈ get_synonyms con (pyStrip t0), s.map lowerChar ∈ parts) ∧
        (∀ q ∈ parts, q = (pyStrip t0).map lowerChar ∨
          ∃ s ∈ get_synonyms con (pyStrip t0), q = s.map lowerChar)) ∧
    (∀ (con : SynDB) (terms : List Str), (∀ t ∈ terms, pyStrip t = []) →
      build_fts_query terms con = []) ∧
    build_fts_query ["ia".data]
        ⟨[(1, "ia".data)], [(1, "inteligencia artificial".data)]⟩ =
      "(ia OR \"inteligencia artificial\")".data := by
  have hstep : ∀ (con : SynDB) (t0 : Str) (terms : List Str), pyStrip t0 = [] →
      build_fts_query (t0 :: terms) con = build_fts_query terms con := by
    intro con t0 terms h0
    unfold build_fts_query
    rw [List.filterMap_cons]
    rw [if_pos h0]
  refine ⟨hstep, ?_, ?_, by decide⟩
  · intro con t0 terms h0
    refine ⟨dedupKeepFirst ((pyStrip t0).map lowerChar ::
      (get_synonyms con (pyStrip t0)).map (fun s => s.map lowerChar)), ?_, ?_, ?_, ?_⟩
    · conv_lhs => unfold build_fts_query
      rw [List.filterMap_cons, if_neg h0]
      dsimp only
      rw [intercalate_cons_eq]
      by_cases hnil : build_fts_query terms con = []
      · rw [if_pos ((build_eq_nil_iff_groups con terms).mp hnil), if_pos hnil]
        rfl
      · rw [if_neg (fun hx => hnil ((build_eq_nil_iff_groups con terms).mpr hx)),
          if_neg hnil]
        rfl
    · exact mem_dedupKeepFirst.mpr (List.mem_cons_self _ _)
    · intro s hs
      exact mem_dedupKeepFirst.mpr (List.mem_cons_of_mem _
        (List.mem_map_of_mem _ hs))
    · intro q hq
      rcases List.mem_cons.mp (mem_dedupKeepFirst.mp hq) with h | h
      · exact Or.inl h
      · rcases List.mem_map.mp h with ⟨s, hs, rfl⟩
        exact Or.inr ⟨s, hs, rfl⟩
  · intro con terms hall
    induction terms with
    | nil => rfl
    | cons t ts ih =>
      rw [hstep con t ts (hall t (List.mem_cons_self t ts))]
      exact ih (fun x hx => hall x (List.mem_cons_of_mem t hx))

/-- C6: the detail phase of `crawl` preserves the nonempty-title invariant of
the store, and a fetch that fails or yields an empty title leaves the store
untouched (the record is skipped without an upsert). -/
theorem crawl_persists_only_titled (fetch : Str → Option CourseRow)
    (links : List Str) (db : CoursesTable)
    (hdb : ∀ q ∈ db, q.2.title ≠ []) :
    (∀ q ∈ crawl_detail_phase fetch links db, q.2.title ≠ []) ∧
    (∀ link, (fetch link = none ∨ ∃ d, fetch link = some d ∧ d.title = []) →
      crawl_detail_step fetch db link = db) := by
  refine ⟨crawl_detail_phase_titles hdb, ?_⟩
  intro link h
  unfold crawl_detail_step
  rcases h with h | ⟨d, hd, ht⟩
  · rw [h]
  · rw [hd]
    dsimp only
    rw [if_pos ht]

/-- C6 witness: crawling one link over an empty store keeps every stored
title nonempty, and failing fetches store nothing. -/
theorem crawl_persists_only_titled_witness :
    (∀ q ∈ crawl_detail_phase
        (fun _ => some ⟨"u".data, "t".data, none, none, none, none, none, none,
          none, none, none, none, "now".data⟩) ["l".data] [], q.2.title ≠ []) ∧
    (∀ link, ((fun _ : Str => some (⟨"u".data, "t".data, none, none, none, none,
          none, none, none, none, none, none, "now".data⟩ : CourseRow)) link = none ∨
        ∃ d, (fun _ : Str => some (⟨"u".data, "t".data, none, none, none, none,
          none, none, none, none, none, none, "now".data⟩ : CourseRow)) link = some d ∧
          d.title = []) →
      crawl_detail_step (fun _ => some ⟨"u".data, "t".data, none, none, none, none,
        none, none, none, none, none, none, "now".data⟩) [] link = []) :=
  crawl_persists_only_titled
    (fun _ => some ⟨"u".data, "t".data, none, none, none, none, none, none,
      none, none, none, none, "now".data⟩) ["l".data] [] (by decide)

/-- C7 (spec-modelled persistence): upserting two rows carrying the same url
into a url-distinct table, in sequence, leaves exactly one row for that url,
holding every field of the later row. -/
theorem upsert_course_latest_wins {db : CoursesTable} {r1 r2 : CourseRow}
    (hu : r1.url = r2.url)
    (huniq : db.Pairwise (fun a b => a.2.url ≠ b.2.url)) :
    ((upsert_course (upsert_course db r1) r2).filter
        (fun q => q.2.url == r1.url)).map (fun q => q.2) = [r2] := by
  rw [hu]
  exact upsert_course_filter (upsert_course_pairwise huniq)

/-- C7 witness: two concrete upserts under one url leave one row with the
later title. -/
theorem upsert_course_latest_wins_witness :
    ((upsert_course (upsert_course []
        ⟨"u".data, "a".data, none, none, none, none, none, none, none, none,
          none, none, "t1".data⟩)
        ⟨"u".data, "b".data, none, none, none, none, none, none, none, none,
          none, none, "t2".data⟩).filter
      (fun q => q.2.url == ("u".data : Str))).map (fun q => q.2) =
    [⟨"u".data, "b".data, none, none, none, none, none, none, none, none,
      none, none, "t2".data⟩] :=
  @upsert_course_latest_wins []
    ⟨"u".data, "a".data, none, none, none, none, none, none, none, none,
      none, none, "t1".data⟩
    ⟨"u".data, "b".data, none, none, none, none, none, none, none, none,
      none, none, "t2".data⟩ (by decide) (by decide)

/-- C8 (amended): provided every discovered link resolves without a
`ValueError`, the walker's collected link set does not depend on the
click-and-wait outcomes (extraction happens on every page index either way),
and one more page index can only grow the link set. -/
theorem iterate_pages_click_robust (vb nf : Str → Bool) (br br2 : Browser)
    (start : Str) (pages : Nat) (initOk : Bool)
    (hrender : br2.render = br.render) :
    iterate_pages_and_collect_links vb nf br2 initOk start pages =
      iterate_pages_and_collect_links vb nf br initOk start pages ∧
    (∀ S S', iterate_pages_and_collect_links vb nf br true start pages = some S →
      iterate_pages_and_collect_links vb nf br true start (pages + 1) = some S' →
      S ⊆ S') := by
  constructor
  · unfold iterate_pages_and_collect_links
    cases initOk with
    | false => rfl
    | true =>
      rw [if_neg (by decide : ¬((!true) = true))]
      rw [if_neg (by decide : ¬((!true) = true))]
      rw [hrender]
      exact iterate_fold_fst hrender _ (∅, first_card_title (br.render 0))
        (∅, first_card_title (br.render 0)) rfl
  · intro S S' hS hS'
    unfold iterate_pages_and_collect_links at hS hS'
    rw [if_neg (by decide : ¬((!true) = true))] at hS hS'
    rw [List.range_succ, List.map_append, List.foldl_append] at hS'
    rcases Option.map_eq_some'.mp hS with ⟨st, hst, hstS⟩
    rw [hst] at hS'
    simp only [List.map_cons, List.map_nil, List.foldl_cons, List.foldl_nil,
      Option.some_bind] at hS'
    rw [iterate_step_eq] at hS'
    rcases Option.map_eq_some'.mp hS' with ⟨st2, hst2, hstS2⟩
    rcases Option.map_eq_some'.mp hst2 with ⟨l, hl, hlst2⟩
    rw [← hstS, ← hstS2, ← hlst2]
    exact collect_course_links_mono _ st.1 l hl

/-- C8 witness: an empty one-page catalog gives the same (empty) link set
whether or not the clicks succeed, and a second page only grows it. -/
theorem iterate_pages_click_robust_witness :
    (iterate_pages_and_collect_links (fun _ => true) (fun _ => true)
        ⟨fun _ => [], fun _ => false⟩ true "s".data 1 =
      iterate_pages_and_collect_links (fun _ => true) (fun _ => true)
        ⟨fun _ => [], fun _ => true⟩ true "s".data 1) ∧
    (∀ S S', iterate_pages_and_collect_links (fun _ => true) (fun _ => true)
        ⟨fun _ => [], fun _ => true⟩ true "s".data 1 = some S →
      iterate_pages_and_collect_links (fun _ => true) (fun _ => true)
        ⟨fun _ => [], fun _ => true⟩ true "s".data 2 = some S' →
      S ⊆ S') :=
  iterate_pages_click_robust (fun _ => true) (fun _ => true)
    ⟨fun _ => [], fun _ => true⟩ ⟨fun _ => [], fun _ => false⟩ "s".data 1 true rfl

/-- C8 counterexample: the card scan sits outside the click-phase `try`, so a
course card whose href makes `urljoin` raise (`//[` has an unbalanced
bracket) aborts the whole walk despite the configured page count — the loop
does not run to completion. -/
theorem iterate_pages_abort_cx :
    iterate_pages_and_collect_links (fun _ => true) (fun _ => true)
      ⟨fun _ => [⟨some "Curso".data, some "//[".data, none, none⟩], fun _ => true⟩
      true "p".data 1 = none := by decide

/-- C9: `search` returns the empty result on an empty match expression
without querying, returns the BM25-ranked rows when that query succeeds, and
falls back to the unranked query over the same match expression when the
ranked query raises an operational error. -/
theorem search_ranked_fallback (env : FtsEnv) (con : SynDB) (interests : List Str)
    (top : Nat) :
    (build_fts_query interests con = [] → search env con interests top = .ok []) ∧
    (∀ rows, build_fts_query interests con ≠ [] →
      env.ranked (build_fts_query interests con) top = .ok rows →
      search env con interests top = .ok rows) ∧
    (∀ e, build_fts_query interests con ≠ [] →
      env.ranked (build_fts_query interests con) top = .error e →
      search env con interests top =
        env.unranked (build_fts_query interests con) top) := by
  refine ⟨?_, ?_, ?_⟩
  · intro h
    unfold search
    rw [if_pos h]
  · intro rows hne hr
    unfold search
    rw [if_neg hne, hr]
  · intro e hne hr
    unfold search
    rw [if_neg hne, hr]

/-- C10: both url-keyed and title-substring comparison return `0` whenever
either selector matches no stored course. -/
theorem compare_missing_rows_zero (fit : Str → Str → Option ℚ) (db : CoursesTable) :
    (∀ ua ub : Str, (db.find? (fun r => r.2.url == ua) = none ∨
        db.find? (fun r => r.2.url == ub) = none) →
      compare_course_urls fit db ua ub = 0) ∧
    (∀ a b : Str,
      ((db.mergeSort (fun x y => x.1 ≤ y.1)).find?
          (fun r => likeMatch ('%' :: a ++ ['%']) r.2.title) = none ∨
       (db.mergeSort (fun x y => x.1 ≤ y.1)).find?
          (fun r => likeMatch ('%' :: b ++ ['%']) r.2.title) = none) →
      compare_course_titles_contains fit db a b = 0) := by
  constructor
  · intro ua ub h
    unfold compare_course_urls
    rcases h with h | h
    · rw [h]
    · rw [h]
      cases db.find? (fun r => r.2.url == ua) <;> rfl
  · intro a b h
    unfold compare_course_titles_contains
    rcases h with h | h
    · rw [h]
    · rw [h]
      cases (db.mergeSort (fun x y => x.1 ≤ y.1)).find?
          (fun r => likeMatch ('%' :: a ++ ['%']) r.2.title) <;> rfl

end LabCrawler


